import Mathlib

/-!
Verification of the DocGen AI document-generation core against its design
specification.  The Python modules under `backend/ai/` are shallowly embedded
as executable Lean definitions: pure functions become Lean functions, the
mutable `WorkflowState` becomes explicit state passing, Python floats are
modelled as exact rationals (`ℚ`), Python `dict`s as insertion-ordered
association lists, and external collaborators (the Gemini HTTP client,
`json.loads`, the system clock, the process hash salt) become explicit
function parameters.  Fallible code returns `Except`/`Option`.
-/

/-! ## Data model (backend/ai/models.py) -/

/-- Embedding of `ValidationStatus` from `backend/ai/models.py`. -/
inductive ValidationStatus where
  | pending
  | valid
  | invalid
  | warning
deriving DecidableEq, Repr

/-- Embedding of `SectionType` from `backend/ai/models.py`. -/
inductive SectionType where
  | heading
  | paragraph
  | table
  | list
  | code_block
  | image
  | custom
deriving DecidableEq, Repr

/-- Embedding of `GeneratedSection` from `backend/ai/models.py`.  The
free-form `generation_metadata` dict and the wall-clock
`generation_time_ms` field are not modelled (no claim mentions them). -/
structure GeneratedSection where
  section_id : String
  original_html : String
  generated_html : String
  validation_status : ValidationStatus := .pending
  error_message : Option String := none
deriving DecidableEq, Repr

/-! ## Workflow nodes (backend/ai/workflow.py)

The `WorkflowState` TypedDict is threaded explicitly.  The validator,
assembler and error-handler nodes only touch `generated_sections`,
`final_html` and `errors`, so the state is restricted to those fields plus
`current_section_index`. -/

/-- The slice of `WorkflowState` used by the validator / assembler /
error-handler nodes. -/
structure WorkflowState where
  generated_sections : List GeneratedSection
  final_html : String := ""
  errors : List String := []
  current_section_index : Nat := 0
deriving DecidableEq, Repr

/-- The structural check of `ValidatorNode.process` (workflow.py line 54):
`generated.generated_html and "<" in generated.generated_html`.  A one
character Python substring test is character membership. -/
def structuralCheck (g : GeneratedSection) : Bool :=
  g.generated_html.data ≠ [] && g.generated_html.data.contains '\x3c'

/-- Embedding of `ValidatorNode.process` (workflow.py lines 47-61): if the
current index is past `generated_sections` the state is returned unchanged;
otherwise the section's `validation_status` is overwritten with the outcome
of the structural check (`VALID` on pass, `INVALID` plus an error message on
failure). -/
def validatorProcess (state : WorkflowState) : WorkflowState :=
  match state.generated_sections[state.current_section_index]? with
  | none => state
  | some g =>
      let g' :=
        if structuralCheck g then
          { g with validation_status := .valid }
        else
          { g with validation_status := .invalid,
                   error_message := some "Generated content is empty or invalid." }
      { state with
        generated_sections :=
          state.generated_sections.set state.current_section_index g' }

/-- Embedding of `AssemblerNode.process` (workflow.py lines 67-73):
`"\n".join([g.generated_html for g in generated_sections if g.generated_html])`. -/
def assemblerProcess (state : WorkflowState) : WorkflowState :=
  { state with
    final_html :=
      String.intercalate "\n"
        ((state.generated_sections.map (·.generated_html)).filter (· ≠ "")) }

/-- Embedding of `ErrorHandlerNode.process` (workflow.py lines 79-87). -/
def errorHandlerProcess (state : WorkflowState) : WorkflowState :=
  { state with
    errors := (state.generated_sections.filter
        (·.validation_status = ValidationStatus.invalid)).map
      (fun g => "Section " ++ g.section_id ++ ": " ++ g.error_message.getD "None") }

/-! ## Claim C1: the workflow validator does not only downgrade -/

/-- Concrete input refuting C1: a `GeneratedSection` the Content Generator
returned as `INVALID` (relevance validation failed on the last retry, so its
`generated_html` is the non-empty last attempt), fed to `ValidatorNode`. -/
def c1Section : GeneratedSection :=
  { section_id := "s1"
    original_html := "<p>original</p>"
    generated_html := "<p>Alpha</p>"
    validation_status := .invalid
    error_message := some "Generated content does not include project name" }

/-- Workflow state holding `c1Section` at the current index. -/
def c1State : WorkflowState :=
  { generated_sections := [c1Section], current_section_index := 0 }

/-- Claim C1 (counterexample).  The claim says a section the generator
marked `Invalid` is never turned `Valid` by the workflow's structural check.
On the concrete state `c1State` the generator-marked-`INVALID` section
passes the structural check (non-empty, contains a `<`) and
`ValidatorNode.process` overwrites its status with `VALID`: the check
upgrades as well as downgrades. -/
theorem c1_counterexample :
    c1State.generated_sections.map (·.validation_status) = [ValidationStatus.invalid] ∧
    (validatorProcess c1State).generated_sections.map (·.validation_status) =
      [ValidationStatus.valid] := by
  constructor
  · rfl
  · decide

/-- Claim C1 (amended).  `ValidatorNode.process` overwrites the
`validation_status` of the current section with the outcome of the
structural check, regardless of the status assigned by the Content
Generator: the status becomes `VALID` exactly when the generated HTML is
non-empty and contains a `<` character, and otherwise becomes `INVALID`
with the message "Generated content is empty or invalid."; the HTML itself
and the section id are left unchanged. -/
theorem c1_validator_overwrites (st : WorkflowState) (g : GeneratedSection)
    (h : st.generated_sections[st.current_section_index]? = some g) :
    ∃ g', (validatorProcess st).generated_sections[st.current_section_index]? = some g' ∧
      (g'.validation_status = ValidationStatus.valid ↔ structuralCheck g = true) ∧
      (structuralCheck g = false →
        g'.validation_status = ValidationStatus.invalid ∧
        g'.error_message = some "Generated content is empty or invalid.") ∧
      g'.generated_html = g.generated_html ∧
      g'.section_id = g.section_id := by
  have hlen : st.current_section_index < st.generated_sections.length :=
    (List.getElem?_eq_some_iff.mp h).1
  unfold validatorProcess
  rw [h]
  by_cases hc : structuralCheck g = true
  · refine ⟨{ g with validation_status := .valid }, ?_, ?_, ?_, rfl, rfl⟩
    · simp only [hc, if_pos]
      exact List.getElem?_set_self hlen
    · simp [hc]
    · intro hfalse; rw [hc] at hfalse; cases hfalse
  · have hc' : structuralCheck g = false := by
      cases hcs : structuralCheck g
      · rfl
      · exact absurd hcs hc
    refine ⟨{ g with
              validation_status := .invalid
              error_message := some "Generated content is empty or invalid." },
            ?_, ?_, ?_, rfl, rfl⟩
    · simp only [hc', Bool.false_eq_true, if_neg, ite_false]
      exact List.getElem?_set_self hlen
    · simp [hc']
    · intro _; exact ⟨rfl, rfl⟩

/-- Concrete witness input for the amended C1 theorem: a generated section
that fails the structural check (empty HTML). -/
def c1wSection : GeneratedSection :=
  { section_id := "w1"
    original_html := "<p>o</p>"
    generated_html := ""
    validation_status := .valid
    error_message := none }

/-- Workflow state holding `c1wSection` at the current index. -/
def c1wState : WorkflowState :=
  { generated_sections := [c1wSection], current_section_index := 0 }

/-- Witness instantiating `c1_validator_overwrites` at `c1wState`. -/
theorem c1_validator_overwrites_witness :
    ∃ g', (validatorProcess c1wState).generated_sections[c1wState.current_section_index]? =
        some g' ∧
      (g'.validation_status = ValidationStatus.valid ↔ structuralCheck c1wSection = true) ∧
      (structuralCheck c1wSection = false →
        g'.validation_status = ValidationStatus.invalid ∧
        g'.error_message = some "Generated content is empty or invalid.") ∧
      g'.generated_html = c1wSection.generated_html ∧
      g'.section_id = c1wSection.section_id :=
  c1_validator_overwrites c1wState c1wSection rfl

/-! ## Claim C8: the assembler joins exactly the non-empty outputs -/

/-- Claim C8.  `AssemblerNode.process` sets `final_html` to the
newline-join of exactly those `generated_html` values that are non-empty,
taken in `generated_sections` order: the joined list is the non-empty
filter of the per-section HTML list, and it is a sublist of that list, so
the relative order of the surviving sections is preserved and failed
(empty) sections are omitted without placeholders. -/
theorem c8_assembler_joins_nonempty (st : WorkflowState) :
    (assemblerProcess st).final_html =
      String.intercalate "\n"
        ((st.generated_sections.map (·.generated_html)).filter (· ≠ "")) ∧
    ((st.generated_sections.map (·.generated_html)).filter (· ≠ "")).Sublist
      (st.generated_sections.map (·.generated_html)) ∧
    ∀ s ∈ (st.generated_sections.map (·.generated_html)).filter (· ≠ ""), s ≠ "" := by
  refine ⟨rfl, List.filter_sublist _, ?_⟩
  intro s hs
  have := List.of_mem_filter hs
  simpa using this

/-! ## Shared string/character helpers

Python string primitives used by the analyzer, the context handler and the
content generator, modelled over `List Char`.  Python `str.strip` whitespace
is space, tab, newline, carriage return, vertical tab and form feed. -/

/-- Python whitespace for `str.strip()`. -/
def isPySpace (c : Char) : Bool :=
  c = ' ' || c = '\t' || c = '\n' || c = '\r' || c = '\x0b' || c = '\x0c'

/-- Python `str.strip()` on a character list. -/
def pyStrip (l : List Char) : List Char :=
  ((l.dropWhile isPySpace).reverse.dropWhile isPySpace).reverse

/-- Does `l` start with `p`?  (Python slice comparison.) -/
def listStartsWith : List Char → List Char → Bool
  | _, [] => true
  | [], _ :: _ => false
  | c :: cs, p :: ps => c = p && listStartsWith cs ps

/-- Python substring test `pat in hay`. -/
def containsSub : List Char → List Char → Bool
  | [], pat => pat.isEmpty
  | c :: t, pat => listStartsWith (c :: t) pat || containsSub t pat

/-- Python `pat in hay` for strings. -/
def strContains (hay pat : String) : Bool :=
  containsSub hay.data pat.data

/-- Python `str.lower()`; ASCII case mapping (all keyword scanning in the
source uses ASCII keywords). -/
def asciiLower (s : String) : String :=
  String.mk (s.data.map Char.toLower)

/-- Decimal digit test. -/
def isDigitCh (c : Char) : Bool :=
  '0' ≤ c && c ≤ '9'

/-- Value of a digit list (most significant first). -/
def digitsVal (l : List Char) : Nat :=
  l.foldl (fun acc c => 10 * acc + (c.toNat - '0'.toNat)) 0

/-! ## Python numeric coercions

Python floats are modelled as exact rationals.  `int(x)` truncates toward
zero; `float(x)` / `int(x)` on strings accept (possibly signed) decimal
literals — exponent, `inf`/`nan` and underscore forms are not modelled (no
claim exercises them). -/

/-- Python `int(q)` on a float: truncation toward zero. -/
def pyInt (q : ℚ) : ℤ :=
  if 0 ≤ q then ⌊q⌋ else -⌊-q⌋

/-- Parse an unsigned decimal literal (`"12"`, `"12."`, `".5"`, `"1.25"`). -/
def decimalVal? (l : List Char) : Option ℚ :=
  match l.splitOn '.' with
  | [a] => if a ≠ [] && a.all isDigitCh then some (digitsVal a : ℚ) else none
  | [a, b] =>
      if (a ≠ [] || b ≠ []) && a.all isDigitCh && b.all isDigitCh then
        some ((digitsVal a : ℚ) + (digitsVal b : ℚ) / (10 : ℚ) ^ b.length)
      else none
  | _ => none

/-- Python `float(s)` on a string (decimal literals only). -/
def strToRat? (s : String) : Option ℚ :=
  match pyStrip s.data with
  | '-' :: r => (decimalVal? r).map (fun q => -q)
  | '+' :: r => decimalVal? r
  | r => decimalVal? r

/-- Python `int(s)` on a string (integer literals only). -/
def strToInt? (s : String) : Option ℤ :=
  match pyStrip s.data with
  | '-' :: r => if r ≠ [] && r.all isDigitCh then some (-(digitsVal r : ℤ)) else none
  | '+' :: r => if r ≠ [] && r.all isDigitCh then some (digitsVal r : ℤ) else none
  | r => if r ≠ [] && r.all isDigitCh then some (digitsVal r : ℤ) else none

/-! ## JSON values and the project context (backend/ai/models.py) -/

/-- JSON-compatible Python values carried in `json_overrides`. -/
inductive JValue where
  | null
  | bool (b : Bool)
  | num (q : ℚ)
  | str (s : String)
  | arr (xs : List JValue)
  | obj (kvs : List (String × JValue))

/-- Embedding of `ProjectContext` from `backend/ai/models.py`; the
`json_overrides` / `strict_vars` dicts are insertion-ordered association
lists with unique keys. -/
structure ProjectContext where
  project_name : String
  project_description : String
  prompt_text : String
  json_overrides : List (String × JValue) := []
  strict_vars : List (String × JValue) := []

/-- Python dict lookup (`d[k]` / `k in d`): first matching key. -/
def alookup {α : Type} (kvs : List (String × α)) (k : String) : Option α :=
  (kvs.find? (fun p => p.1 = k)).map (·.2)

/-- Python dict assignment `d[k] = v`: replace in place if the key exists,
else append. -/
def alistSet {α : Type} (kvs : List (String × α)) (k : String) (v : α) : List (String × α) :=
  if kvs.any (fun p => p.1 = k) then
    kvs.map (fun p => if p.1 = k then (k, v) else p)
  else
    kvs ++ [(k, v)]

/-- Python `float(x)` over JSON values; `None`, lists and dicts raise
`TypeError` (`none` here). -/
def pyFloat? : JValue → Option ℚ
  | .num q => some q
  | .bool b => some (if b then 1 else 0)
  | .str s => strToRat? s
  | _ => none

/-- Python `int(x)` over JSON values; `None`, lists and dicts raise
`TypeError` (`none` here). -/
def pyIntJ? : JValue → Option ℤ
  | .num q => some (pyInt q)
  | .bool b => some (if b then 1 else 0)
  | .str s => strToInt? s
  | _ => none

/-! ## Project metrics analyzer (backend/ai/project_analyzer.py)

Floats are exact rationals; the process-global string hash (`hash`) and the
current date (`datetime.date.today()`, as a day ordinal) are explicit
parameters — both are fixed for the lifetime of one Python process/day. -/

/-- `ProjectContextAnalyzer.COMPLEXITY_FACTORS`, in dict insertion order. -/
def complexityFactors : List (String × ℚ) :=
  [("web", 1), ("mobile", 6/5), ("desktop", 11/10), ("api", 9/10), ("data", 13/10),
   ("ml", 3/2), ("blockchain", 8/5), ("iot", 7/5), ("game", 13/10), ("enterprise", 7/5)]

/-- `ProjectContextAnalyzer.BASE_HOURS`, in dict insertion order. -/
def baseHours : List (String × ℕ) :=
  [("requirements", 20), ("design", 30), ("development", 100),
   ("testing", 40), ("deployment", 15), ("documentation", 10)]

/-- `ProjectContextAnalyzer.TIMELINE_FACTORS` lookup with the `.get(_, 1.0)`
default. -/
def timelineFactor (size : String) : ℚ :=
  (alookup [("small", (1 : ℚ)/2), ("medium", 1), ("large", 2), ("enterprise", 3)]
    size).getD 1

/-- Embedding of `ProjectContextAnalyzer._calculate_complexity_score`
(project_analyzer.py lines 100-131). -/
def calculate_complexity_score (ctx : ProjectContext) : ℚ :=
  let description := asciiLower ctx.project_description
  let s1 := complexityFactors.foldl
    (fun acc p => if strContains description p.1 then acc * p.2 else acc) 1
  let s2 :=
    if ["complex", "complicated", "advanced", "sophisticated"].any
        (fun w => strContains description w) then s1 * (13/10)
    else if ["simple", "basic", "straightforward"].any
        (fun w => strContains description w) then s1 * (7/10)
    else s1
  let s3 :=
    if ["large", "enterprise", "extensive"].any (fun w => strContains description w) then
      s2 * (7/5)
    else if ["small", "minimal", "prototype"].any (fun w => strContains description w) then
      s2 * (3/5)
    else s2
  let s4 :=
    match alookup ctx.json_overrides "complexity" with
    | some v =>
        match pyFloat? v with
        | some q => q
        | none => s3
    | none => s3
  max (1/2) (min 3 s4)

/-- Embedding of `ProjectContextAnalyzer._calculate_estimated_hours`
(project_analyzer.py lines 134-155).  `hashFn` is Python's process-seeded
`hash` on strings; `hash(name+phase) % 100` is Python `%` (nonnegative
remainder, `Int.emod`). -/
def calculate_estimated_hours (hashFn : String → ℤ) (ctx : ProjectContext)
    (complexity_score : ℚ) : List (String × ℤ) :=
  let base := baseHours.map (fun p =>
    (p.1, pyInt ((p.2 : ℚ) * complexity_score *
      ((9 : ℚ)/10 + (1/5) * (((hashFn (ctx.project_name ++ p.1)).emod 100 : ℤ) : ℚ) / 100))))
  let withOv :=
    match alookup ctx.json_overrides "hours" with
    | some (.obj hv) =>
        hv.foldl (fun acc p =>
          match pyIntJ? p.2 with
          | some n => alistSet acc p.1 n
          | none => acc) base
    | _ => base
  alistSet withOv "total" ((withOv.map (·.2)).sum)

/-- The `total_hours` read in `_calculate_timeline`:
`estimated_hours.get("total", sum(estimated_hours.values()))`. -/
def totalHours (hours : List (String × ℤ)) : ℤ :=
  (alookup hours "total").getD ((hours.map (·.2)).sum)

/-- The project-size classification of `_calculate_timeline`
(project_analyzer.py lines 164-170): strict `>` thresholds. -/
def projectSize (total : ℤ) : String :=
  if total > 500 then "enterprise"
  else if total > 300 then "large"
  else if total > 150 then "medium"
  else "small"

/-- Week range string `f"Week {a} - Week {b}"`. -/
def weekRange (a b : ℤ) : String :=
  "Week " ++ toString a ++ " - Week " ++ toString b

/-- The per-phase loop of `_calculate_timeline` (lines 176-187), threading
`current_week`; returns the accumulated ranges and the final
`current_week`. -/
def timelineRangesLoop (factor : ℚ) : List (String × ℤ) → ℤ → List (String × JValue) × ℤ
  | [], cw => ([], cw)
  | (p, h) :: rest, cw =>
      if p = "total" then timelineRangesLoop factor rest cw
      else
        let phase_weeks := max 1 (pyInt ((h : ℚ) / 40 * factor))
        let end_week := cw + phase_weeks - 1
        let r := timelineRangesLoop factor rest (end_week + 1)
        ((p, JValue.str (weekRange cw end_week)) :: r.1, r.2)

/-- `_calculate_timeline` without the override merge: ranges plus the
`"duration"` entry. -/
def timelineCore (factor : ℚ) (hours : List (String × ℤ)) : List (String × JValue) :=
  let r := timelineRangesLoop factor hours 1
  alistSet r.1 "duration" (.str (toString (r.2 - 1) ++ " weeks"))

/-- Embedding of `ProjectContextAnalyzer._calculate_timeline`
(project_analyzer.py lines 158-197).  Timeline override values are copied
in verbatim (the source performs `result[phase] = timeline` with no type
check), hence the `JValue` codomain. -/
def calculate_timeline (ctx : ProjectContext) (hours : List (String × ℤ)) :
    List (String × JValue) :=
  let core := timelineCore (timelineFactor (projectSize (totalHours hours))) hours
  match alookup ctx.json_overrides "timeline" with
  | some (.obj tv) => tv.foldl (fun acc p => alistSet acc p.1 p.2) core
  | _ => core

/-- Embedding of `ProjectContextAnalyzer._determine_resources`
(project_analyzer.py lines 200-234).  The `resources` override replaces the
whole list verbatim (arbitrary JSON values), hence the `JValue` codomain;
computed entries are strings. -/
def determine_resources (ctx : ProjectContext) (complexity_score : ℚ) : List JValue :=
  match alookup ctx.json_overrides "resources" with
  | some (.arr l) => l
  | _ =>
    let description := asciiLower ctx.project_description
    let r1 : List JValue := [.str "Project Manager"]
    let dev_count := max 1 (pyInt (complexity_score * 2))
    let r2 := r1 ++ [.str (toString dev_count ++ " Developers")]
    let r3 :=
      if ["ui", "ux", "user interface", "user experience", "frontend", "front-end"].any
          (fun w => strContains description w) then r2 ++ [.str "UI/UX Designer"] else r2
    let r4 :=
      if complexity_score > 1 then
        r3 ++ [.str (toString (max 1 (pyInt complexity_score)) ++ " QA Engineers")]
      else r3
    let r5 :=
      if ["devops", "ci/cd", "deployment", "cloud", "infrastructure"].any
          (fun w => strContains description w) then r4 ++ [.str "DevOps Engineer"] else r4
    let r6 :=
      if ["data", "analytics", "database", "sql", "nosql"].any
          (fun w => strContains description w) then r5 ++ [.str "Data Engineer"] else r5
    if ["ml", "ai", "machine learning", "artificial intelligence"].any
        (fun w => strContains description w) then r6 ++ [.str "ML Engineer"] else r6

/-- Match of `r"Week (\d+) - Week (\d+)"` at the start of `l`. -/
def matchWeekRange (l : List Char) : Option (ℕ × ℕ) :=
  if listStartsWith l ("Week ".data) then
    let l1 := l.drop 5
    let d1 := l1.takeWhile isDigitCh
    let l2 := l1.dropWhile isDigitCh
    if d1 ≠ [] && listStartsWith l2 (" - Week ".data) then
      let d2 := (l2.drop 8).takeWhile isDigitCh
      if d2 ≠ [] then some (digitsVal d1, digitsVal d2) else none
    else none
  else none

/-- `re.search` of `r"Week (\d+) - Week (\d+)"`: first position where the
pattern matches. -/
def searchWeekRange : List Char → Option (ℕ × ℕ)
  | [] => none
  | c :: t =>
      match matchWeekRange (c :: t) with
      | some r => some r
      | none => searchWeekRange t

/-- Embedding of `ProjectContextAnalyzer._generate_custom_values`
(project_analyzer.py lines 237-286).  `today` is the current date as a day
ordinal; a milestone value is the phase end date as a day ordinal
(`today + 7 × end_week` days — the `%Y-%m-%d` rendering is not modelled).
A non-string value smuggled in via a `timeline` override makes
`re.search` raise `TypeError`, modelled as `Except.error`. -/
def generate_custom_values (today : ℤ) (ctx : ProjectContext) (complexity_score : ℚ)
    (hours : List (String × ℤ)) : Except String (List (String × JValue)) := do
  let hourly_rate : ℚ :=
    match alookup ctx.json_overrides "hourly_rate" with
    | some v => (pyFloat? v).getD 100
    | none => 100
  let total_hours : ℤ :=
    (alookup hours "total").getD
      (((hours.filter (fun p => p.1 ≠ "total")).map (·.2)).sum)
  let cv1 : List (String × JValue) :=
    [("cost_estimate", .num (pyInt ((total_hours : ℚ) * hourly_rate) : ℤ))]
  let risk : String :=
    if complexity_score > 2 then "High"
    else if complexity_score < 1 then "Low"
    else "Medium"
  let cv2 := cv1 ++ [("risk_level", .str risk)]
  let milestones ← (calculate_timeline ctx hours).foldlM
    (fun (acc : List (String × JValue)) p => do
      if p.1 = "duration" then
        return acc
      else
        match p.2 with
        | .str s =>
            match searchWeekRange s.data with
            | some r => return alistSet acc p.1 (.num ((today : ℚ) + 7 * (r.2 : ℚ)))
            | none => return acc
        | _ => throw "TypeError: expected string or bytes-like object")
    []
  let cv3 := cv2 ++ [("milestones", .obj milestones)]
  let cv4 :=
    match alookup ctx.json_overrides "custom" with
    | some (.obj cu) => cu.foldl (fun acc p => alistSet acc p.1 p.2) cv3
    | _ => cv3
  return cv4

/-- Embedding of `ProjectMetrics` from `project_analyzer.py`. -/
structure ProjectMetrics where
  complexity_score : ℚ
  estimated_hours : List (String × ℤ)
  timeline_breakdown : List (String × JValue)
  resource_requirements : List JValue
  custom_values : List (String × JValue)

/-- Embedding of `ProjectContextAnalyzer.analyze_project_scope`
(project_analyzer.py lines 66-97). -/
def analyze_project_scope (hashFn : String → ℤ) (today : ℤ) (ctx : ProjectContext) :
    Except String ProjectMetrics := do
  let complexity_score := calculate_complexity_score ctx
  let estimated_hours := calculate_estimated_hours hashFn ctx complexity_score
  let timeline_breakdown := calculate_timeline ctx estimated_hours
  let resource_requirements := determine_resources ctx complexity_score
  let custom_values ← generate_custom_values today ctx complexity_score estimated_hours
  return { complexity_score := complexity_score
           estimated_hours := estimated_hours
           timeline_breakdown := timeline_breakdown
           resource_requirements := resource_requirements
           custom_values := custom_values }


/-! ## Claim C2: a numeric complexity override replaces the computed score -/

/-- Claim C2.  If `json_overrides` holds a numeric `"complexity"` value `v`,
the Metrics Analyzer's complexity score is exactly `v` clamped to
`[0.5, 3.0]`, whatever the project description contributed. -/
theorem c2_complexity_override (ctx : ProjectContext) (v : ℚ)
    (h : alookup ctx.json_overrides "complexity" = some (JValue.num v)) :
    calculate_complexity_score ctx = max 0.5 (min 3.0 v) := by
  simp only [calculate_complexity_score, h, pyFloat?]
  norm_num

/-- Concrete witness context for C2: an override of 2.0 together with a
description full of keywords that would otherwise move the score. -/
def c2wCtx : ProjectContext :=
  { project_name := "Atlas"
    project_description := "complex large enterprise blockchain ml web platform"
    prompt_text := "p"
    json_overrides := [("complexity", .num 2)] }

/-- Witness instantiating `c2_complexity_override` at `c2wCtx`: the score is
exactly 2. -/
theorem c2_complexity_override_witness : calculate_complexity_score c2wCtx = 2 := by
  have h := c2_complexity_override c2wCtx 2 rfl
  rw [h]; norm_num

/-! ## Claim C9: the Metrics Analyzer is deterministic per context -/

/-- Claim C9.  With the process-wide string hash and the current date held
fixed (both are constant within one Python process and day), two
`ProjectContext` values that agree field by field produce identical
`ProjectMetrics` — the only "randomness" is the name-derived jitter, which
is a function of the context. -/
theorem c9_analyze_deterministic (hashFn : String → ℤ) (today : ℤ)
    (c₁ c₂ : ProjectContext)
    (hn : c₁.project_name = c₂.project_name)
    (hd : c₁.project_description = c₂.project_description)
    (hp : c₁.prompt_text = c₂.prompt_text)
    (hj : c₁.json_overrides = c₂.json_overrides)
    (hs : c₁.strict_vars = c₂.strict_vars) :
    analyze_project_scope hashFn today c₁ = analyze_project_scope hashFn today c₂ := by
  obtain ⟨n₁, d₁, p₁, j₁, s₁⟩ := c₁
  obtain ⟨n₂, d₂, p₂, j₂, s₂⟩ := c₂
  cases hn; cases hd; cases hp; cases hj; cases hs
  rfl

/-- Concrete hash stand-in for the witness (any fixed function works). -/
def c9Hash (s : String) : ℤ := (s.length : ℤ) * 37

/-- Concrete witness context for C9. -/
def c9Ctx : ProjectContext :=
  { project_name := "Orion"
    project_description := "a small data project"
    prompt_text := "write docs"
    json_overrides := [("hourly_rate", .num 120)] }

/-- Witness instantiating `c9_analyze_deterministic` at `c9Ctx` (written out
twice, field by field). -/
theorem c9_analyze_deterministic_witness :
    analyze_project_scope c9Hash 20000 c9Ctx =
      analyze_project_scope c9Hash 20000
        { project_name := "Orion"
          project_description := "a small data project"
          prompt_text := "write docs"
          json_overrides := [("hourly_rate", .num 120)] } :=
  c9_analyze_deterministic c9Hash 20000 c9Ctx
    { project_name := "Orion"
      project_description := "a small data project"
      prompt_text := "write docs"
      json_overrides := [("hourly_rate", .num 120)] }
    rfl rfl rfl rfl rfl

/-! ## Claim C7: project-size thresholds in the timeline calculation -/

/-- The claim's classifier, word for word: small for total < 150, medium for
150 ≤ total < 300, large for 300 ≤ total < 500, enterprise for
total ≥ 500. -/
def claimProjectSize (total : ℤ) : String :=
  if total ≥ 500 then "enterprise"
  else if total ≥ 300 then "large"
  else if total ≥ 150 then "medium"
  else "small"

/-- Per-phase week count: `max(1, int(hours / 40 * timeline_factor))`. -/
def phaseWidth (f : ℚ) (h : ℤ) : ℤ :=
  max 1 (pyInt ((h : ℚ) / 40 * f))

/-- Total week count of a phase list. -/
def widthsSum (f : ℚ) (phases : List (String × ℤ)) : ℤ :=
  (phases.map (fun p => phaseWidth f p.2)).sum

/-- The claim's sequential layout: phases laid out as consecutive,
non-overlapping week ranges, each `phaseWidth` wide, starting at `start`. -/
def specRanges (f : ℚ) : ℤ → List (String × ℤ) → List (String × JValue)
  | _, [] => []
  | start, p :: rest =>
      (p.1, JValue.str (weekRange start (start + phaseWidth f p.2 - 1))) ::
        specRanges f (start + phaseWidth f p.2) rest

/-- The timeline loop computes exactly the claim's sequential layout and
finishes at `cw` plus the total width. -/
theorem timelineRangesLoop_eq_spec (f : ℚ) (hours : List (String × ℤ)) :
    ∀ cw : ℤ,
      timelineRangesLoop f hours cw =
        (specRanges f cw (hours.filter (fun p => p.1 ≠ "total")),
         cw + widthsSum f (hours.filter (fun p => p.1 ≠ "total"))) := by
  induction hours with
  | nil =>
      intro cw
      show ([], cw) = ([], cw + widthsSum f (List.filter _ []))
      simp [widthsSum]
  | cons ph rest ih =>
      intro cw
      obtain ⟨p, h⟩ := ph
      by_cases hp : p = "total"
      · subst hp
        have e1 : timelineRangesLoop f (("total", h) :: rest) cw =
            timelineRangesLoop f rest cw := by
          simp [timelineRangesLoop]
        have hf : (("total", h) :: rest).filter (fun q => q.1 ≠ "total") =
            rest.filter (fun q => q.1 ≠ "total") := by simp
        rw [e1, ih cw, hf]
      · have e1 : timelineRangesLoop f ((p, h) :: rest) cw =
            ((p, JValue.str (weekRange cw (cw + phaseWidth f h - 1))) ::
               (timelineRangesLoop f rest (cw + phaseWidth f h - 1 + 1)).1,
             (timelineRangesLoop f rest (cw + phaseWidth f h - 1 + 1)).2) := by
          simp [timelineRangesLoop, hp, phaseWidth]
        have hf : ((p, h) :: rest).filter (fun q => q.1 ≠ "total") =
            (p, h) :: rest.filter (fun q => q.1 ≠ "total") := by simp [hp]
        have hw : cw + phaseWidth f h - 1 + 1 = cw + phaseWidth f h := by ring
        rw [e1, hw, ih (cw + phaseWidth f h), hf]
        simp only [specRanges, widthsSum, List.map_cons, List.sum_cons, Prod.mk.injEq,
          true_and, and_true]
        ring

/-- Concrete hours table with `total = 500`, the boundary the claim
misclassifies. -/
def c7Hours : List (String × ℤ) := [("development", 500), ("total", 500)]

/-- Claim C7 (counterexample).  At exactly 500 total hours the code
classifies the project as "large" (its thresholds are strict `>`), while
the claim's classifier says "enterprise" (`total ≥ 500`), and the two
classifications apply different week factors: a 500-hour phase is laid out
as 25 weeks under the code's factor 2.0 but would be 37 weeks under the
claim's factor 3.0. -/
theorem c7_counterexample :
    totalHours c7Hours = 500 ∧
    projectSize 500 = "large" ∧
    claimProjectSize 500 = "enterprise" ∧
    "large" ≠ "enterprise" ∧
    phaseWidth (timelineFactor (projectSize 500)) 500 = 25 ∧
    phaseWidth (timelineFactor (claimProjectSize 500)) 500 = 37 := by
  have hps : projectSize 500 = "large" := by norm_num [projectSize]
  have hcs : claimProjectSize 500 = "enterprise" := by norm_num [claimProjectSize]
  refine ⟨by simp [totalHours, alookup, c7Hours], hps, hcs, by decide, ?_, ?_⟩
  · rw [hps]
    have : timelineFactor "large" = 2 := by simp [timelineFactor, alookup]
    rw [this]
    norm_num [phaseWidth, pyInt]
  · rw [hcs]
    have : timelineFactor "enterprise" = 3 := by simp [timelineFactor, alookup]
    rw [this]
    norm_num [phaseWidth, pyInt]

/-- Claim C7 (amended).  The code classifies with strict thresholds —
small for total ≤ 150, medium for 150 < total ≤ 300, large for
300 < total ≤ 500, enterprise for total > 500 — the week factors are
0.5 / 1.0 / 2.0 / 3.0, and `timelineCore` applies the factor to every
phase: it produces exactly the claim's sequential layout (each non-total
phase `max(1, int(hours/40 × factor))` weeks wide, consecutively from week
1) plus a `"duration"` entry equal to the total width. -/
theorem c7_size_classification (hours : List (String × ℤ)) :
    (∀ total : ℤ,
      (projectSize total = "small" ↔ total ≤ 150) ∧
      (projectSize total = "medium" ↔ 150 < total ∧ total ≤ 300) ∧
      (projectSize total = "large" ↔ 300 < total ∧ total ≤ 500) ∧
      (projectSize total = "enterprise" ↔ 500 < total)) ∧
    timelineFactor "small" = 1/2 ∧ timelineFactor "medium" = 1 ∧
    timelineFactor "large" = 2 ∧ timelineFactor "enterprise" = 3 ∧
    ∀ f : ℚ,
      timelineCore f hours =
        alistSet (specRanges f 1 (hours.filter (fun p => p.1 ≠ "total"))) "duration"
          (.str (toString (widthsSum f (hours.filter (fun p => p.1 ≠ "total"))) ++ " weeks")) := by
  refine ⟨?_, by simp [timelineFactor, alookup], by simp [timelineFactor, alookup],
    by simp [timelineFactor, alookup], by simp [timelineFactor, alookup], ?_⟩
  · intro total
    unfold projectSize
    refine ⟨?_, ?_, ?_, ?_⟩ <;> split_ifs with h1 h2 h3 <;> simp_all <;> omega
  · intro f
    unfold timelineCore
    rw [timelineRangesLoop_eq_spec]
    have hw : (1 : ℤ) + widthsSum f (hours.filter (fun p => p.1 ≠ "total")) - 1 =
        widthsSum f (hours.filter (fun p => p.1 ≠ "total")) := by ring
    simp [hw]

/-! ## Post-processing of LLM output (backend/ai/content_generator.py)

`ContentGenerator.postprocess_output` (lines 79-92) runs, in order:
`re.sub(r"\x60\x60\x60(html)?", "")`, the MULTILINE heading substitutions
`^## (.+)$` → `<h2>\1</h2>` and `^# (.+)$` → `<h1>\1</h1>`, removal of all
remaining backticks, and `str.strip()`.  Everything is modelled over
`List Char`; MULTILINE `^`/`$` anchors are exactly the boundaries produced
by splitting on newline characters. -/

/-- Left-to-right, non-overlapping removal of code-fence markers: each
occurrence of three backticks, greedily extended by a following `html`, is
dropped (the `(html)?` group of the pattern). -/
def removeFencesAux : ℕ → List Char → List Char
  | 0, l => l
  | _, [] => []
  | fuel + 1, c :: rest =>
      if c = '\x60' && listStartsWith rest ['\x60', '\x60', 'h', 't', 'm', 'l'] then
        removeFencesAux fuel (rest.drop 6)
      else if c = '\x60' && listStartsWith rest ['\x60', '\x60'] then
        removeFencesAux fuel (rest.drop 2)
      else c :: removeFencesAux fuel rest

/-- Left-to-right, non-overlapping removal of code-fence markers.  Each step
consumes at least one character, so `l.length` fuel always suffices; the
fuel only makes the recursion structural. -/
def removeFences (l : List Char) : List Char :=
  removeFencesAux l.length l

/-- Split at newline characters; `n` newlines produce `n+1` lines. -/
def splitLines : List Char → List (List Char)
  | [] => [[]]
  | c :: rest =>
      if c = '\n' then [] :: splitLines rest
      else
        match splitLines rest with
        | [] => [[c]]
        | l :: ls => (c :: l) :: ls

/-- Rejoin lines with newline separators (inverse of `splitLines`). -/
def joinLines : List (List Char) → List Char
  | [] => []
  | [m] => m
  | m :: ms => m ++ '\n' :: joinLines ms

/-- One line under `re.sub(r"^## (.+)$", r"<h2>\1</h2>")`: a line that is
`## ` followed by at least one character is wrapped, anything else is left
alone. -/
def convertLine2 (l : List Char) : List Char :=
  if listStartsWith l ("## ".data) && !(l.drop 3).isEmpty then
    "<h2>".data ++ l.drop 3 ++ "</h2>".data
  else l

/-- One line under `re.sub(r"^# (.+)$", r"<h1>\1</h1>")`. -/
def convertLine1 (l : List Char) : List Char :=
  if listStartsWith l ("# ".data) && !(l.drop 2).isEmpty then
    "<h1>".data ++ l.drop 2 ++ "</h1>".data
  else l

/-- The MULTILINE `##` heading substitution over the whole text. -/
def convertH2 (l : List Char) : List Char :=
  joinLines ((splitLines l).map convertLine2)

/-- The MULTILINE `#` heading substitution over the whole text. -/
def convertH1 (l : List Char) : List Char :=
  joinLines ((splitLines l).map convertLine1)

/-- Embedding of `ContentGenerator.postprocess_output` on character lists:
fence removal, `##` then `#` heading conversion, backtick removal,
`strip()`. -/
def postprocessChars (l : List Char) : List Char :=
  pyStrip (List.filter (fun c => c ≠ '\x60') (convertH1 (convertH2 (removeFences l))))

/-- Embedding of `ContentGenerator.postprocess_output` (content_generator.py
lines 79-92). -/
def postprocess_output (s : String) : String :=
  ⟨postprocessChars s.data⟩

/-! ## Content generator retry loop (backend/ai/content_generator.py)

`generate_section` (lines 113-185) is embedded with its external
collaborators as parameters: `env i` is the outcome of the `i`-th HTTP call
to the generation API, and `validate` is the relevance validation (`none` =
valid, `some msg` = invalid).  The returned list records the backoff sleeps
performed, in milliseconds (`await asyncio.sleep(1.5 * retries)` after the
`retries += 1`); wall-clock timing and the free-form metadata dict are not
modelled. -/

/-- Outcome of one HTTP call: a 200 response with extracted candidate text,
a non-200 status with a body, or a transport exception. -/
inductive AttemptOutcome where
  | ok (text : String)
  | httpError (code : ℕ) (body : String)
  | exn (msg : String)

/-- An attempt fails (in the sense of claim C3) when the response is
non-200, the body text is empty, or the call raised. -/
def attemptFailed : AttemptOutcome → Bool
  | .ok t => t = ""
  | .httpError _ _ => true
  | .exn _ => true

/-- The `error_message` the code records for a failed attempt. -/
def attemptError : AttemptOutcome → String
  | .ok _ => "Empty response from Gemini API."
  | .httpError code body => "Gemini API error: " ++ toString code ++ " " ++ body
  | .exn m => m

/-- Embedding of `SectionMetadata` from `backend/ai/models.py`. -/
structure SectionMetadata where
  level : ℕ
  tag_name : String
  classes : List String := []
  attributes : List (String × String) := []
  word_count : ℕ := 0
  complexity_score : ℚ := 0
deriving DecidableEq, Repr

/-- Embedding of `DocumentSection` from `backend/ai/models.py`. -/
structure DocumentSection where
  id : String
  html_content : String
  section_type : SectionType
  metadata : SectionMetadata
  parent_id : Option String := none
  children : List String := []
  order_index : ℕ := 0
deriving DecidableEq, Repr

/-- The `while retries < self.max_retries` loop of
`ContentGenerator.generate_section`, by fuel (`fuel = max_retries -
retries`, `attempt` = the 0-based index of the current attempt); running out
of fuel is the fall-through return (`generated_html=""`, `INVALID`, last
error).  Each failed attempt appends its `1.5s × (attempt+1)` sleep (in
ms). -/
def genLoop (validate : String → Option String) (env : ℕ → AttemptOutcome)
    (maxRetries : ℕ) (sec : DocumentSection) :
    ℕ → ℕ → Option String → GeneratedSection × List ℕ
  | 0, _, lastErr =>
      ({ section_id := sec.id, original_html := sec.html_content,
         generated_html := "", validation_status := .invalid,
         error_message := lastErr }, [])
  | fuel + 1, attempt, _ =>
      match env attempt with
      | .ok text =>
          if text = "" then
            let r := genLoop validate env maxRetries sec fuel (attempt + 1)
              (some "Empty response from Gemini API.")
            (r.1, 1500 * (attempt + 1) :: r.2)
          else
            let t := postprocess_output text
            match validate t with
            | none =>
                ({ section_id := sec.id, original_html := sec.html_content,
                   generated_html := t, validation_status := .valid,
                   error_message := none }, [])
            | some verr =>
                if attempt + 1 ≥ maxRetries then
                  ({ section_id := sec.id, original_html := sec.html_content,
                     generated_html := t, validation_status := .invalid,
                     error_message := some verr }, [])
                else
                  let r := genLoop validate env maxRetries sec fuel (attempt + 1)
                    (some ("Content validation failed: " ++ verr))
                  (r.1, 1500 * (attempt + 1) :: r.2)
      | .httpError code body =>
          let r := genLoop validate env maxRetries sec fuel (attempt + 1)
            (some ("Gemini API error: " ++ toString code ++ " " ++ body))
          (r.1, 1500 * (attempt + 1) :: r.2)
      | .exn m =>
          let r := genLoop validate env maxRetries sec fuel (attempt + 1) (some m)
          (r.1, 1500 * (attempt + 1) :: r.2)

/-- Embedding of `ContentGenerator.generate_section` (content_generator.py
lines 113-185): up to `max_retries = 3` attempts. -/
def generate_section (validate : String → Option String) (env : ℕ → AttemptOutcome)
    (sec : DocumentSection) : GeneratedSection × List ℕ :=
  genLoop validate env 3 sec 3 0 none

/-- A failed attempt records its error, sleeps `1.5s × (attempt+1)` and
loops. -/
theorem genLoop_fail_step (validate : String → Option String)
    (env : ℕ → AttemptOutcome) (maxRetries : ℕ) (sec : DocumentSection)
    (fuel attempt : ℕ) (lastErr : Option String)
    (h : attemptFailed (env attempt) = true) :
    genLoop validate env maxRetries sec (fuel + 1) attempt lastErr =
      ((genLoop validate env maxRetries sec fuel (attempt + 1)
          (some (attemptError (env attempt)))).1,
       1500 * (attempt + 1) ::
         (genLoop validate env maxRetries sec fuel (attempt + 1)
            (some (attemptError (env attempt)))).2) := by
  cases he : env attempt with
  | ok t =>
      have ht : t = "" := by simpa [attemptFailed, he] using h
      subst ht
      simp [genLoop, he, attemptError]
  | httpError code body => simp [genLoop, he, attemptError]
  | exn m => simp [genLoop, he, attemptError]

/-- Claim C3.  When all three attempts fail (HTTP non-200, empty body, or
transport exception each time), `generate_section` returns — it never
raises, failures being encoded in the result — a `GeneratedSection` with
`validation_status = INVALID`, `generated_html = ""` and the last captured
error string, having slept 1.5 s, 3 s (between attempts: 1.5 s × attempt
number) and finally 4.5 s. -/
theorem c3_all_attempts_fail (validate : String → Option String)
    (env : ℕ → AttemptOutcome) (sec : DocumentSection)
    (h0 : attemptFailed (env 0) = true) (h1 : attemptFailed (env 1) = true)
    (h2 : attemptFailed (env 2) = true) :
    generate_section validate env sec =
      ({ section_id := sec.id, original_html := sec.html_content,
         generated_html := "", validation_status := .invalid,
         error_message := some (attemptError (env 2)) },
       [1500, 3000, 4500]) := by
  unfold generate_section
  rw [genLoop_fail_step validate env 3 sec 2 0 none h0]
  rw [genLoop_fail_step validate env 3 sec 1 1 _ h1]
  rw [genLoop_fail_step validate env 3 sec 0 2 _ h2]
  simp [genLoop]

/-- Environment for the C3 witness: every call returns HTTP 500. -/
def c3Env : ℕ → AttemptOutcome := fun _ => .httpError 500 "boom"

/-- Concrete section for the C3 witness. -/
def c3Sec : DocumentSection :=
  { id := "sec1", html_content := "<p>x</p>", section_type := .paragraph,
    metadata := { level := 0, tag_name := "p" } }

/-- Witness instantiating `c3_all_attempts_fail`: three 500s give the
Invalid/empty result with the last error and the three backoff sleeps. -/
theorem c3_all_attempts_fail_witness :
    generate_section (fun _ => none) c3Env c3Sec =
      ({ section_id := "sec1", original_html := "<p>x</p>", generated_html := "",
         validation_status := .invalid,
         error_message := some "Gemini API error: 500 boom" },
       [1500, 3000, 4500]) := by
  have h := c3_all_attempts_fail (fun _ => none) c3Env c3Sec rfl rfl rfl
  exact h.trans (by decide)

/-! ## Claim C10: postprocess_output is not idempotent -/

/-- Claim C10 (counterexample).  `postprocess_output` is not idempotent:
on `"  # Title"` the first pass only strips the leading spaces (the
MULTILINE `^# ` pattern does not match an indented line), but the second
pass then sees the heading marker at the start of the line and converts it,
so the second application changes the string again. -/
theorem c10_counterexample :
    postprocess_output "  # Title" = "# Title" ∧
    postprocess_output (postprocess_output "  # Title") = "<h1>Title</h1>" ∧
    postprocess_output (postprocess_output "  # Title") ≠ postprocess_output "  # Title" := by
  refine ⟨by decide, by decide, by decide⟩

/-- Fence removal (at any fuel) is the identity on backtick-free text. -/
theorem removeFencesAux_eq_self :
    ∀ (fuel : ℕ) (l : List Char), '\x60' ∉ l → removeFencesAux fuel l = l := by
  intro fuel
  induction fuel with
  | zero => intro l _; cases l <;> rfl
  | succ f ih =>
      intro l h
      cases l with
      | nil => rfl
      | cons c rest =>
          have hc : (c = '\x60') = False := by
            simp only [eq_iff_iff, iff_false]
            exact fun e => h (by simp [e])
          have ht : '\x60' ∉ rest := fun m => h (List.mem_cons_of_mem _ m)
          simp only [removeFencesAux, hc, decide_False, Bool.false_and,
            Bool.false_eq_true, if_false, ite_false]
          rw [ih rest ht]

/-- Fence removal is the identity on backtick-free text. -/
theorem removeFences_eq_self {l : List Char} (h : '\x60' ∉ l) : removeFences l = l :=
  removeFencesAux_eq_self l.length l h

/-- Backtick removal is the identity on backtick-free text. -/
theorem filterBacktick_eq_self {l : List Char} (h : '\x60' ∉ l) :
    l.filter (fun c => c ≠ '\x60') = l := by
  rw [List.filter_eq_self]
  intro a ha
  simp only [ne_eq, decide_eq_true_eq]
  exact fun e => h (e ▸ ha)

/-- `splitLines` always produces at least one line. -/
theorem splitLines_ne_nil (l : List Char) : splitLines l ≠ [] := by
  cases l with
  | nil => simp [splitLines]
  | cons c rest =>
      simp only [splitLines]
      by_cases hc : c = '\n'
      · simp [hc]
      · simp only [hc, if_neg, ite_false]
        cases splitLines rest <;> simp

/-- Every character of a line of `splitLines l` is a character of `l`. -/
theorem mem_of_mem_splitLines {l : List Char} {m : List Char} {c : Char}
    (hm : m ∈ splitLines l) (hc : c ∈ m) : c ∈ l := by
  induction l generalizing m with
  | nil =>
      simp only [splitLines, List.mem_singleton] at hm
      subst hm
      cases hc
  | cons a rest ih =>
      simp only [splitLines] at hm
      by_cases ha : a = '\n'
      · simp only [ha, if_pos, ite_true, List.mem_cons] at hm
        rcases hm with hm | hm
        · subst hm; cases hc
        · exact List.mem_cons_of_mem _ (ih hm hc)
      · simp only [ha, if_neg, ite_false] at hm
        rcases hsplit : splitLines rest with _ | ⟨l₀, ls⟩
        · exact absurd hsplit (splitLines_ne_nil rest)
        · rw [hsplit] at hm
          rcases List.mem_cons.mp hm with hm | hm
          · subst hm
            rcases List.mem_cons.mp hc with hc | hc
            · exact hc ▸ List.mem_cons_self a rest
            · exact List.mem_cons_of_mem _
                (ih (hsplit ▸ List.mem_cons_self l₀ ls) hc)
          · exact List.mem_cons_of_mem _ (ih (hsplit ▸ List.mem_cons_of_mem l₀ hm) hc)

/-- Lines produced by `splitLines` contain no newline. -/
theorem newline_not_mem_splitLines {l : List Char} {m : List Char}
    (hm : m ∈ splitLines l) : '\n' ∉ m := by
  induction l generalizing m with
  | nil =>
      simp only [splitLines, List.mem_singleton] at hm
      subst hm; simp
  | cons a rest ih =>
      simp only [splitLines] at hm
      by_cases ha : a = '\n'
      · simp only [ha, if_pos, ite_true, List.mem_cons] at hm
        rcases hm with hm | hm
        · subst hm; simp
        · exact ih hm
      · simp only [ha, if_neg, ite_false] at hm
        rcases hsplit : splitLines rest with _ | ⟨l₀, ls⟩
        · exact absurd hsplit (splitLines_ne_nil rest)
        · rw [hsplit] at hm
          rcases List.mem_cons.mp hm with hm | hm
          · subst hm
            intro hmem
            rcases List.mem_cons.mp hmem with he | hmem
            · exact ha he.symm
            · exact ih (hsplit ▸ List.mem_cons_self l₀ ls) hmem
          · exact ih (hsplit ▸ List.mem_cons_of_mem l₀ hm)

/-- Every character of `joinLines ls` is a newline or a character of some
line. -/
theorem mem_joinLines {ls : List (List Char)} {c : Char} (h : c ∈ joinLines ls) :
    c = '\n' ∨ ∃ m ∈ ls, c ∈ m := by
  induction ls with
  | nil => cases h
  | cons m ms ih =>
      cases ms with
      | nil =>
          right
          exact ⟨m, List.mem_singleton_self m, h⟩
      | cons m' ms' =>
          simp only [joinLines, List.mem_append, List.mem_cons] at h
          rcases h with h | h | h
          · exact Or.inr ⟨m, List.mem_cons_self _ _, h⟩
          · exact Or.inl h
          · rcases ih h with h | ⟨m'', hm'', hc⟩
            · exact Or.inl h
            · exact Or.inr ⟨m'', List.mem_cons_of_mem _ hm'', hc⟩

/-- Characters of a wrapped line come from the line or the added markup. -/
theorem mem_wrap_cases {a b l : List Char} {k : ℕ} {c : Char}
    (h : c ∈ a ++ l.drop k ++ b) : c ∈ l ∨ c ∈ a ∨ c ∈ b := by
  rcases List.mem_append.mp h with h | h
  · rcases List.mem_append.mp h with h | h
    · exact Or.inr (Or.inl h)
    · exact Or.inl (List.mem_of_mem_drop h)
  · exact Or.inr (Or.inr h)

/-- A character absent from a line and from the `h2` markup is absent from
the converted line. -/
theorem convertLine2_not_mem {l : List Char} {c : Char} (h1 : c ∉ l)
    (h2 : c ∉ "<h2>".data) (h3 : c ∉ "</h2>".data) : c ∉ convertLine2 l := by
  intro hmem
  unfold convertLine2 at hmem
  split at hmem
  · rcases mem_wrap_cases hmem with h | h | h
    · exact h1 h
    · exact h2 h
    · exact h3 h
  · exact h1 hmem

/-- A character absent from a line and from the `h1` markup is absent from
the converted line. -/
theorem convertLine1_not_mem {l : List Char} {c : Char} (h1 : c ∉ l)
    (h2 : c ∉ "<h1>".data) (h3 : c ∉ "</h1>".data) : c ∉ convertLine1 l := by
  intro hmem
  unfold convertLine1 at hmem
  split at hmem
  · rcases mem_wrap_cases hmem with h | h | h
    · exact h1 h
    · exact h2 h
    · exact h3 h
  · exact h1 hmem

/-- The `##` conversion introduces no character beyond markup and newlines;
in particular it preserves backtick-freeness. -/
theorem convertH2_not_mem {l : List Char} {c : Char} (h1 : c ∉ l)
    (h2 : c ∉ "<h2>".data) (h3 : c ∉ "</h2>".data) (h4 : c ≠ '\n') :
    c ∉ convertH2 l := by
  intro hmem
  rcases mem_joinLines hmem with he | ⟨m, hm, hc⟩
  · exact h4 he
  · rcases List.mem_map.mp hm with ⟨m₀, hm₀, rfl⟩
    exact convertLine2_not_mem
      (fun hx => h1 (mem_of_mem_splitLines hm₀ hx)) h2 h3 hc

/-- The `#` conversion introduces no character beyond markup and newlines. -/
theorem convertH1_not_mem {l : List Char} {c : Char} (h1 : c ∉ l)
    (h2 : c ∉ "<h1>".data) (h3 : c ∉ "</h1>".data) (h4 : c ≠ '\n') :
    c ∉ convertH1 l := by
  intro hmem
  rcases mem_joinLines hmem with he | ⟨m, hm, hc⟩
  · exact h4 he
  · rcases List.mem_map.mp hm with ⟨m₀, hm₀, rfl⟩
    exact convertLine1_not_mem
      (fun hx => h1 (mem_of_mem_splitLines hm₀ hx)) h2 h3 hc

/-- A newline-free text is a single line. -/
theorem splitLines_of_no_newline {m : List Char} (h : '\n' ∉ m) :
    splitLines m = [m] := by
  induction m with
  | nil => rfl
  | cons c t ih =>
      have hc : ¬ (c = '\n') := fun e => h (by simp [e])
      have ht : '\n' ∉ t := fun hx => h (List.mem_cons_of_mem _ hx)
      simp only [splitLines, hc, if_neg, ite_false, ih ht]

/-- Splitting around an explicit newline after a newline-free prefix. -/
theorem splitLines_append_newline {m r : List Char} (h : '\n' ∉ m) :
    splitLines (m ++ '\n' :: r) = m :: splitLines r := by
  induction m with
  | nil => simp [splitLines]
  | cons c t ih =>
      have hc : ¬ (c = '\n') := fun e => h (by simp [e])
      have ht : '\n' ∉ t := fun hx => h (List.mem_cons_of_mem _ hx)
      simp only [List.cons_append, splitLines, hc, if_neg, ite_false, List.append_eq]
      rw [ih ht]

/-- `splitLines` is a left inverse of `joinLines` on non-empty lists of
newline-free lines. -/
theorem splitLines_joinLines {ls : List (List Char)} (hne : ls ≠ [])
    (hnl : ∀ m ∈ ls, '\n' ∉ m) : splitLines (joinLines ls) = ls := by
  induction ls with
  | nil => exact absurd rfl hne
  | cons m ms ih =>
      cases ms with
      | nil =>
          show splitLines (joinLines [m]) = [m]
          exact splitLines_of_no_newline (hnl m (List.mem_singleton_self m))
      | cons m' ms' =>
          show splitLines (m ++ '\n' :: joinLines (m' :: ms')) = m :: m' :: ms'
          rw [splitLines_append_newline (hnl m (List.mem_cons_self _ _))]
          rw [ih (by simp) (fun x hx => hnl x (List.mem_cons_of_mem _ hx))]

/-- A prefix test fails when the first characters differ. -/
theorem listStartsWith_cons_false {c p : Char} {l ps : List Char} (h : ¬ c = p) :
    listStartsWith (c :: l) (p :: ps) = false := by
  simp [listStartsWith, h]

/-- A line that does not start with `## ` is unchanged by the `##`
conversion. -/
theorem convertLine2_eq_self_of {l : List Char}
    (h : listStartsWith l ("## ".data) = false) : convertLine2 l = l := by
  simp [convertLine2, h]

/-- A line that does not start with `# ` is unchanged by the `#`
conversion. -/
theorem convertLine1_eq_self_of {l : List Char}
    (h : listStartsWith l ("# ".data) = false) : convertLine1 l = l := by
  simp [convertLine1, h]

/-- After one `##`-then-`#` pass over a line, both conversions are
no-ops: a converted line starts with `<`, and an unconverted line still
matches neither pattern. -/
theorem convertLine_pass_idem (l : List Char) :
    convertLine2 (convertLine1 (convertLine2 l)) = convertLine1 (convertLine2 l) ∧
    convertLine1 (convertLine1 (convertLine2 l)) = convertLine1 (convertLine2 l) := by
  by_cases h2 : (listStartsWith l ("## ".data) && !(l.drop 3).isEmpty) = true
  · have e2 : convertLine2 l = "<h2>".data ++ l.drop 3 ++ "</h2>".data := by
      simp [convertLine2, h2]
    have hw1 : listStartsWith ("<h2>".data ++ l.drop 3 ++ "</h2>".data) ("# ".data) = false :=
      listStartsWith_cons_false (by decide)
    have hw2 : listStartsWith ("<h2>".data ++ l.drop 3 ++ "</h2>".data) ("## ".data) = false :=
      listStartsWith_cons_false (by decide)
    have e1 : convertLine1 (convertLine2 l) = convertLine2 l := by
      rw [e2]; exact convertLine1_eq_self_of hw1
    rw [e1, e2]
    exact ⟨convertLine2_eq_self_of hw2, convertLine1_eq_self_of hw1⟩
  · have e2 : convertLine2 l = l := by simp [convertLine2, h2]
    rw [e2]
    by_cases h1 : (listStartsWith l ("# ".data) && !(l.drop 2).isEmpty) = true
    · have e1 : convertLine1 l = "<h1>".data ++ l.drop 2 ++ "</h1>".data := by
        simp [convertLine1, h1]
      rw [e1]
      exact ⟨convertLine2_eq_self_of (listStartsWith_cons_false (by decide)),
             convertLine1_eq_self_of (listStartsWith_cons_false (by decide))⟩
    · have e1 : convertLine1 l = l := by simp [convertLine1, h1]
      rw [e1]
      exact ⟨by simp [convertLine2, h2], by simp [convertLine1, h1]⟩

/-- First character of a text is not Python whitespace (vacuous for the
empty text). -/
def headOkB (l : List Char) : Bool :=
  match l.head? with
  | some c => !isPySpace c
  | none => true

/-- Last character of a text is not Python whitespace (vacuous for the
empty text). -/
def lastOkB (l : List Char) : Bool :=
  match l.getLast? with
  | some c => !isPySpace c
  | none => true

/-- A text equal to its own strip: no leading or trailing whitespace. -/
def strippedB (l : List Char) : Bool :=
  headOkB l && lastOkB l

/-- `lastOkB` is `headOkB` of the reversal. -/
theorem lastOkB_eq_headOkB_reverse (l : List Char) : lastOkB l = headOkB l.reverse := by
  unfold lastOkB headOkB
  rw [List.head?_reverse]

/-- `dropWhile` is the identity when the head is not whitespace. -/
theorem dropWhile_eq_self_of_headOkB {l : List Char} (h : headOkB l = true) :
    l.dropWhile isPySpace = l := by
  cases l with
  | nil => rfl
  | cons c t =>
      have hc : isPySpace c = false := by simpa [headOkB] using h
      simp [List.dropWhile_cons, hc]

/-- Python `strip()` is the identity on texts with no leading/trailing
whitespace. -/
theorem pyStrip_eq_self {l : List Char} (h : strippedB l = true) : pyStrip l = l := by
  obtain ⟨h1, h2⟩ : headOkB l = true ∧ lastOkB l = true := by
    simpa [strippedB] using h
  unfold pyStrip
  rw [dropWhile_eq_self_of_headOkB h1]
  have hr : headOkB l.reverse = true := by
    rw [← lastOkB_eq_headOkB_reverse]; exact h2
  rw [dropWhile_eq_self_of_headOkB hr, List.reverse_reverse]

/-- If `dropWhile` changed nothing the head was not whitespace. -/
theorem headOkB_of_dropWhile_eq {l : List Char}
    (h : l.dropWhile isPySpace = l) : headOkB l = true := by
  cases l with
  | nil => rfl
  | cons c t =>
      by_cases hc : isPySpace c = true
      · exfalso
        rw [List.dropWhile_cons, if_pos hc] at h
        have hlen := congrArg List.length h
        have hle := (List.dropWhile_sublist (l := t) isPySpace).length_le
        simp only [List.length_cons] at hlen
        omega
      · simp only [headOkB, List.head?_cons]
        simp only [Bool.not_eq_true] at hc
        simp [hc]

/-- A text equal to its own strip has no leading or trailing whitespace. -/
theorem strippedB_of_pyStrip {l : List Char} (h : pyStrip l = l) :
    strippedB l = true := by
  have hlen : (pyStrip l).length = l.length := by rw [h]
  have hd1le : (l.dropWhile isPySpace).length ≤ l.length :=
    (List.dropWhile_sublist isPySpace).length_le
  have hstriple : (pyStrip l).length ≤ (l.dropWhile isPySpace).length := by
    unfold pyStrip
    rw [List.length_reverse]
    calc ((l.dropWhile isPySpace).reverse.dropWhile isPySpace).length
        ≤ (l.dropWhile isPySpace).reverse.length :=
          (List.dropWhile_sublist isPySpace).length_le
      _ = (l.dropWhile isPySpace).length := List.length_reverse _
  have e1 : l.dropWhile isPySpace = l :=
    (List.dropWhile_sublist isPySpace).eq_of_length (by omega)
  have e2 : l.reverse.dropWhile isPySpace = l.reverse := by
    have hps : pyStrip l = (l.reverse.dropWhile isPySpace).reverse := by
      unfold pyStrip; rw [e1]
    calc l.reverse.dropWhile isPySpace
        = ((l.reverse.dropWhile isPySpace).reverse).reverse :=
          (List.reverse_reverse _).symm
      _ = (pyStrip l).reverse := by rw [hps]
      _ = l.reverse := by rw [h]
  unfold strippedB
  simp only [Bool.and_eq_true]
  refine ⟨headOkB_of_dropWhile_eq e1, ?_⟩
  rw [lastOkB_eq_headOkB_reverse]
  exact headOkB_of_dropWhile_eq e2

/-- The first line of a text starting with a non-newline character starts
with that character. -/
theorem splitLines_head {c : Char} {t : List Char} (h : ¬ c = '\n') :
    ∃ m ms, splitLines (c :: t) = (c :: m) :: ms := by
  simp only [splitLines, h, if_neg, ite_false]
  rcases hs : splitLines t with _ | ⟨l₀, ls⟩
  · exact absurd hs (splitLines_ne_nil t)
  · exact ⟨l₀, ls, rfl⟩

/-- Joining lines starts with the first line's first character. -/
theorem joinLines_head? {m : List Char} {ms : List (List Char)} (h : m ≠ []) :
    (joinLines (m :: ms)).head? = m.head? := by
  cases ms with
  | nil => rfl
  | cons m' ms' =>
      show (m ++ '\n' :: joinLines (m' :: ms')).head? = m.head?
      rw [List.head?_append]
      cases m with
      | nil => exact absurd rfl h
      | cons a t => rfl

/-- Prepending a non-newline character extends the first line. -/
theorem splitLines_cons_ne {a : Char} {rest l₀ : List Char} {ls : List (List Char)}
    (ha : ¬ a = '\n') (hs : splitLines rest = l₀ :: ls) :
    splitLines (a :: rest) = (a :: l₀) :: ls := by
  simp only [splitLines, ha, if_neg, ite_false, hs]

/-- The last line of a text ending with a non-newline character ends with
that character. -/
theorem splitLines_getLast {l : List Char} {c : Char} (hl : l.getLast? = some c)
    (hc : ¬ c = '\n') : ∃ ms m, splitLines l = ms ++ [m] ∧ m.getLast? = some c := by
  induction l with
  | nil => cases hl
  | cons a t ih =>
      cases t with
      | nil =>
          have hac : a = c := by simpa using hl
          subst hac
          refine ⟨[], [a], ?_, by simp⟩
          have hnil : splitLines ([] : List Char) = [] :: [] := rfl
          exact splitLines_cons_ne hc hnil
      | cons b t' =>
          have hl' : (b :: t').getLast? = some c := by
            rw [← List.getLast?_cons_cons]; exact hl
          obtain ⟨ms, m, hsp, hm⟩ := ih hl'
          by_cases ha : a = '\n'
          · subst ha
            refine ⟨[] :: ms, m, ?_, hm⟩
            have e : splitLines ('\n' :: b :: t') = [] :: splitLines (b :: t') := by
              simp [splitLines]
            rw [e, hsp]
            rfl
          · cases ms with
            | nil =>
                have hsp' : splitLines (b :: t') = m :: [] := by simpa using hsp
                refine ⟨[], a :: m, splitLines_cons_ne ha hsp', ?_⟩
                cases m with
                | nil => cases hm
                | cons x xs => rw [List.getLast?_cons_cons]; exact hm
            | cons m₀ ms' =>
                have hsp' : splitLines (b :: t') = m₀ :: (ms' ++ [m]) := by simpa using hsp
                refine ⟨(a :: m₀) :: ms', m, ?_, hm⟩
                rw [splitLines_cons_ne ha hsp']
                rfl

/-- Joining lines ends with the last line's last character (when the last
line is non-empty). -/
theorem joinLines_getLast? {ms : List (List Char)} {m : List Char} (h : m ≠ []) :
    (joinLines (ms ++ [m])).getLast? = m.getLast? := by
  induction ms with
  | nil => rfl
  | cons m₀ ms' ih =>
      have hsome : m.getLast?.isSome := List.getLast?_isSome.mpr h
      obtain ⟨z, hz⟩ := Option.isSome_iff_exists.mp hsome
      have hne2 : ms' ++ [m] ≠ [] := by simp
      rcases hr : ms' ++ [m] with _ | ⟨x, xs⟩
      · exact absurd hr hne2
      · have ih' : (joinLines (x :: xs)).getLast? = some z := by rw [← hr, ih, hz]
        show (joinLines (m₀ :: (ms' ++ [m]))).getLast? = m.getLast?
        rw [hr]
        show (m₀ ++ '\n' :: joinLines (x :: xs)).getLast? = m.getLast?
        rw [List.getLast?_append]
        rcases hjl : joinLines (x :: xs) with _ | ⟨y, ys⟩
        · rw [hjl] at ih'; cases ih'
        · rw [hjl] at ih'
          have hgl : ('\n' :: (y :: ys)).getLast? = some z := by
            rw [List.getLast?_cons_cons]; exact ih'
          rw [hgl, hz]
          rfl

/-- The `##` conversion leaves a line unchanged or wraps it in markup
starting with `<` and ending with `>`. -/
theorem convertLine2_id_or_wrap (m : List Char) :
    convertLine2 m = m ∨
      ((convertLine2 m).head? = some '<' ∧ (convertLine2 m).getLast? = some '>') := by
  by_cases h : (listStartsWith m ("## ".data) && !(m.drop 3).isEmpty) = true
  · right
    have e : convertLine2 m = "<h2>".data ++ m.drop 3 ++ "</h2>".data := by
      simp [convertLine2, h]
    rw [e]
    refine ⟨rfl, ?_⟩
    rw [List.getLast?_append]
    rfl
  · left; simp [convertLine2, h]

/-- The `#` conversion leaves a line unchanged or wraps it in markup
starting with `<` and ending with `>`. -/
theorem convertLine1_id_or_wrap (m : List Char) :
    convertLine1 m = m ∨
      ((convertLine1 m).head? = some '<' ∧ (convertLine1 m).getLast? = some '>') := by
  by_cases h : (listStartsWith m ("# ".data) && !(m.drop 2).isEmpty) = true
  · right
    have e : convertLine1 m = "<h1>".data ++ m.drop 2 ++ "</h1>".data := by
      simp [convertLine1, h]
    rw [e]
    refine ⟨rfl, ?_⟩
    rw [List.getLast?_append]
    rfl
  · left; simp [convertLine1, h]

/-- A line-wise substitution whose output lines keep their first/last
character or are markup-wrapped preserves the absence of leading and
trailing whitespace. -/
theorem strippedB_lineMap {f : List Char → List Char}
    (hf : ∀ m, f m = m ∨ ((f m).head? = some '<' ∧ (f m).getLast? = some '>'))
    {l : List Char} (h : strippedB l = true) :
    strippedB (joinLines ((splitLines l).map f)) = true := by
  cases l with
  | nil =>
      show strippedB (f []) = true
      rcases hf [] with he | ⟨hh, hl⟩
      · rw [he]; rfl
      · unfold strippedB headOkB lastOkB
        rw [hh, hl]
        rfl
  | cons c t =>
      obtain ⟨hHead, hLast⟩ : headOkB (c :: t) = true ∧ lastOkB (c :: t) = true := by
        simpa [strippedB] using h
      have hcs : isPySpace c = false := by simpa [headOkB] using hHead
      have hcn : ¬ c = '\n' := by
        intro e; rw [e] at hcs; cases hcs
      obtain ⟨c', hc'⟩ : ∃ c', (c :: t).getLast? = some c' :=
        Option.isSome_iff_exists.mp (List.getLast?_isSome.mpr (by simp))
      have hcs' : isPySpace c' = false := by
        have hx := hLast
        unfold lastOkB at hx
        rw [hc'] at hx
        simpa using hx
      have hcn' : ¬ c' = '\n' := by
        intro e; rw [e] at hcs'; cases hcs'
      obtain ⟨m, ms, hsplit⟩ := splitLines_head (t := t) hcn
      obtain ⟨ms', mL, hsplit', hmL⟩ := splitLines_getLast hc' hcn'
      unfold strippedB
      simp only [Bool.and_eq_true]
      constructor
      · rw [hsplit, List.map_cons]
        unfold headOkB
        rcases hf (c :: m) with he | ⟨hh, _⟩
        · have hne : f (c :: m) ≠ [] := by rw [he]; simp
          rw [joinLines_head? hne, he]
          simp [hcs]
        · have hne : f (c :: m) ≠ [] := by
            intro he2; rw [he2] at hh; cases hh
          rw [joinLines_head? hne, hh]
          rfl
      · rw [hsplit', List.map_append]
        simp only [List.map_cons, List.map_nil]
        unfold lastOkB
        rcases hf mL with he | ⟨_, hl2⟩
        · have hne : f mL ≠ [] := by
            rw [he]; intro he2; rw [he2] at hmL; cases hmL
          rw [joinLines_getLast? hne, he, hmL]
          simp [hcs']
        · have hne : f mL ≠ [] := by
            intro he2; rw [he2] at hl2; cases hl2
          rw [joinLines_getLast? hne, hl2]
          rfl

/-- One pass of `postprocessChars` on clean input is just the heading
conversion, and a second pass changes nothing. -/
theorem postprocessChars_idem {l : List Char}
    (hb : '\x60' ∉ l) (hs : pyStrip l = l) :
    postprocessChars (postprocessChars l) = postprocessChars l := by
  have h1 : removeFences l = l := removeFences_eq_self hb
  have hb2 : '\x60' ∉ convertH2 l :=
    convertH2_not_mem hb (by decide) (by decide) (by decide)
  have hb1 : '\x60' ∉ convertH1 (convertH2 l) :=
    convertH1_not_mem hb2 (by decide) (by decide) (by decide)
  have hstr0 : strippedB l = true := strippedB_of_pyStrip hs
  have hstr2 : strippedB (convertH2 l) = true :=
    strippedB_lineMap convertLine2_id_or_wrap hstr0
  have hstr1 : strippedB (convertH1 (convertH2 l)) = true :=
    strippedB_lineMap convertLine1_id_or_wrap hstr2
  have hpy : pyStrip (convertH1 (convertH2 l)) = convertH1 (convertH2 l) :=
    pyStrip_eq_self hstr1
  have hfil : (convertH1 (convertH2 l)).filter (fun c => c ≠ '\x60') =
      convertH1 (convertH2 l) := filterBacktick_eq_self hb1
  have e1 : postprocessChars l = convertH1 (convertH2 l) := by
    unfold postprocessChars
    rw [h1, hfil, hpy]
  have lines_ne : splitLines l ≠ [] := splitLines_ne_nil l
  have l2_nl : ∀ m ∈ (splitLines l).map convertLine2, '\n' ∉ m := by
    intro m hm
    rcases List.mem_map.mp hm with ⟨m₀, hm₀, rfl⟩
    exact convertLine2_not_mem (newline_not_mem_splitLines hm₀) (by decide) (by decide)
  have l2_ne : (splitLines l).map convertLine2 ≠ [] := by
    simpa using lines_ne
  have rt : splitLines (convertH2 l) = (splitLines l).map convertLine2 :=
    splitLines_joinLines l2_ne l2_nl
  have e_t : convertH1 (convertH2 l) =
      joinLines ((splitLines l).map (fun m => convertLine1 (convertLine2 m))) := by
    show joinLines ((splitLines (convertH2 l)).map convertLine1) = _
    rw [rt, List.map_map]
    rfl
  have fl_nl : ∀ m ∈ (splitLines l).map (fun m => convertLine1 (convertLine2 m)),
      '\n' ∉ m := by
    intro m hm
    rcases List.mem_map.mp hm with ⟨m₀, hm₀, rfl⟩
    exact convertLine1_not_mem
      (convertLine2_not_mem (newline_not_mem_splitLines hm₀) (by decide) (by decide))
      (by decide) (by decide)
  have fl_ne : (splitLines l).map (fun m => convertLine1 (convertLine2 m)) ≠ [] := by
    simpa using lines_ne
  have rt2 : splitLines (convertH1 (convertH2 l)) =
      (splitLines l).map (fun m => convertLine1 (convertLine2 m)) := by
    rw [e_t]
    exact splitLines_joinLines fl_ne fl_nl
  have conv2_t : convertH2 (convertH1 (convertH2 l)) = convertH1 (convertH2 l) := by
    show joinLines ((splitLines (convertH1 (convertH2 l))).map convertLine2) = _
    rw [rt2, List.map_map]
    have hpt : (convertLine2 ∘ fun m => convertLine1 (convertLine2 m)) =
        (fun m => convertLine1 (convertLine2 m)) :=
      funext fun m => (convertLine_pass_idem m).1
    rw [hpt, ← e_t]
  have conv1_t : convertH1 (convertH1 (convertH2 l)) = convertH1 (convertH2 l) := by
    show joinLines ((splitLines (convertH1 (convertH2 l))).map convertLine1) = _
    rw [rt2, List.map_map]
    have hpt : (convertLine1 ∘ fun m => convertLine1 (convertLine2 m)) =
        (fun m => convertLine1 (convertLine2 m)) :=
      funext fun m => (convertLine_pass_idem m).2
    rw [hpt, ← e_t]
  have e2 : postprocessChars (convertH1 (convertH2 l)) = convertH1 (convertH2 l) := by
    unfold postprocessChars
    rw [removeFences_eq_self hb1, conv2_t, conv1_t, hfil, hpy]
  rw [e1]
  exact e2

/-- Claim C10 (amended).  `postprocess_output` is idempotent on clean
inputs: for every string with no backtick characters that equals its own
`strip()`, a second application changes nothing.  (In general the claim is
false — see the counterexample: stripping, or backtick removal, can expose
a heading marker at the start of a line that only the second pass
converts.) -/
theorem c10_idempotent_on_stripped (s : String)
    (hb : '\x60' ∉ s.data) (hs : pyStrip s.data = s.data) :
    postprocess_output (postprocess_output s) = postprocess_output s := by
  show String.mk (postprocessChars (String.data ⟨postprocessChars s.data⟩)) =
    String.mk (postprocessChars s.data)
  exact congrArg String.mk (postprocessChars_idem hb hs)

/-- Witness instantiating `c10_idempotent_on_stripped` on a concrete
backtick-free, stripped string. -/
theorem c10_idempotent_on_stripped_witness :
    postprocess_output (postprocess_output "## Plan\nuse <b>bold</b>") =
      postprocess_output "## Plan\nuse <b>bold</b>" :=
  c10_idempotent_on_stripped "## Plan\nuse <b>bold</b>" (by decide) (by decide)

/-! ## Project context builder (backend/ai/context_handler.py)

`json.loads` is an external collaborator and enters as a parameter
`loads : String → Option JValue` (`none` = parse error, mirroring the
caught exception).  The regex `r"\x7b[\s\S]*?\x7d"` (non-greedy) matches each
`\x7b` up to the nearest following `\x7d`, scanning left to right without
overlap. -/

/-- Whitespace-run collapsing of `re.sub(r"\s+", " ", ·)`; the flag records
whether the previous character was part of a run. -/
def collapseWsAux : Bool → List Char → List Char
  | _, [] => []
  | prevSpace, c :: rest =>
      if isPySpace c then
        if prevSpace then collapseWsAux true rest
        else ' ' :: collapseWsAux true rest
      else c :: collapseWsAux false rest

/-- Embedding of `ProjectContextHandler.sanitize_input` (context_handler.py
lines 39-45): strip, then collapse internal whitespace runs to one space. -/
def sanitize_input (s : String) : String :=
  if s.data = [] then "" else ⟨collapseWsAux false (pyStrip s.data)⟩

/-- Split a character list at the first closing brace, returning the part
before it and the part after it. -/
def splitAtCloseBrace : List Char → Option (List Char × List Char)
  | [] => none
  | c :: rest =>
      if c = '\x7d' then some ([], rest)
      else (splitAtCloseBrace rest).map (fun p => (c :: p.1, p.2))

/-- `re.findall` for the non-greedy brace pattern: each match runs from a
`\x7b` to the nearest `\x7d`, and scanning resumes after the match.  Each
step consumes at least one character, so `l.length` fuel always suffices;
the fuel only makes the recursion structural. -/
def findBraceBlocksAux : ℕ → List Char → List (List Char)
  | 0, _ => []
  | _, [] => []
  | fuel + 1, c :: rest =>
      if c = '\x7b' then
        match splitAtCloseBrace rest with
        | some (inner, rest2) =>
            ('\x7b' :: inner ++ ['\x7d']) :: findBraceBlocksAux fuel rest2
        | none => findBraceBlocksAux fuel rest
      else findBraceBlocksAux fuel rest

/-- All brace-delimited candidate blocks of a text, in order. -/
def findBraceBlocks (l : List Char) : List (List Char) :=
  findBraceBlocksAux l.length l

/-- The backward scan of `extract_json_overrides`: try each candidate in
the given order, returning the first that parses as a JSON object, else the
empty mapping. -/
def firstJsonObj (loads : String → Option JValue) : List (List Char) → List (String × JValue)
  | [] => []
  | m :: ms =>
      match loads (String.mk m) with
      | some (.obj d) => d
      | _ => firstJsonObj loads ms

/-- Embedding of `ProjectContextHandler.extract_json_overrides`
(context_handler.py lines 20-36): empty or whitespace-only prompts give no
overrides; otherwise the candidates are tried from the last match going
backward. -/
def extract_json_overrides (loads : String → Option JValue) (prompt_text : String) :
    List (String × JValue) :=
  if prompt_text.data = [] ∨ pyStrip prompt_text.data = [] then []
  else firstJsonObj loads (findBraceBlocks prompt_text.data).reverse

/-- Embedding of `UserInput` from `backend/ai/models.py` (pydantic):
`json_overrides` and `strict_vars` are `Optional[Dict]`. -/
structure UserInput where
  project_name : String
  project_description : String
  prompt_text : String
  json_overrides : Option (List (String × JValue)) := some []
  strict_vars : Option (List (String × JValue)) := some []

/-- Embedding of `ProjectContextHandler.build_project_context`
(context_handler.py lines 47-62).  `user_input.json_overrides or
extract_json_overrides(prompt)` is Python truthiness: `None` and the empty
dict both fall through to extraction. -/
def build_project_context (loads : String → Option JValue) (u : UserInput) :
    ProjectContext :=
  let prompt_text := sanitize_input u.prompt_text
  let json_overrides :=
    match u.json_overrides with
    | some l => if l.isEmpty then extract_json_overrides loads prompt_text else l
    | none => extract_json_overrides loads prompt_text
  { project_name := sanitize_input u.project_name
    project_description := sanitize_input u.project_description
    prompt_text := prompt_text
    json_overrides := json_overrides
    strict_vars := u.strict_vars.getD [] }

/-- Stand-in for `json.loads` in the C6 counterexample; it agrees with
`json.loads` on the one candidate block the input produces. -/
def c6Loads (s : String) : Option JValue :=
  if s = "\x7b\"a\": 1\x7d" then some (.obj [("a", .num 1)]) else none

/-- User input that explicitly supplies an empty overrides mapping while
the prompt carries a JSON block. -/
def c6Input : UserInput :=
  { project_name := "N"
    project_description := "D"
    prompt_text := "use \x7b\"a\": 1\x7d"
    json_overrides := some [] }

/-- Claim C6 (counterexample).  The claim says explicitly supplied
`json_overrides` are used verbatim.  But the code tests Python truthiness:
with an explicitly supplied empty mapping and a prompt containing a JSON
block, the result is the extracted block, not the supplied empty mapping. -/
theorem c6_counterexample :
    c6Input.json_overrides = some [] ∧
    (build_project_context c6Loads c6Input).json_overrides = [("a", JValue.num 1)] := by
  exact ⟨rfl, rfl⟩

/-- Backward-scan characterization: either no candidate parses as a JSON
object (empty result), or the result is the first parsing candidate and
everything before it fails to parse as an object. -/
theorem firstJsonObj_spec (loads : String → Option JValue) (ls : List (List Char)) :
    (firstJsonObj loads ls = [] ∧
      ∀ m ∈ ls, ∀ d, loads (String.mk m) ≠ some (.obj d)) ∨
    (∃ pre m post, ls = pre ++ m :: post ∧
      (∀ m' ∈ pre, ∀ d, loads (String.mk m') ≠ some (.obj d)) ∧
      loads (String.mk m) = some (.obj (firstJsonObj loads ls))) := by
  induction ls with
  | nil => exact Or.inl ⟨rfl, by simp⟩
  | cons m ms ih =>
      by_cases hobj : ∃ d, loads (String.mk m) = some (.obj d)
      · obtain ⟨d, hd⟩ := hobj
        right
        refine ⟨[], m, ms, rfl, by simp, ?_⟩
        have hfj : firstJsonObj loads (m :: ms) = d := by
          simp [firstJsonObj, hd]
        rw [hfj]
        exact hd
      · have hno : ∀ d, loads (String.mk m) ≠ some (.obj d) :=
          fun d hd => hobj ⟨d, hd⟩
        have hstep : firstJsonObj loads (m :: ms) = firstJsonObj loads ms := by
          rcases hm : loads (String.mk m) with _ | v
          · simp [firstJsonObj, hm]
          · cases v with
            | obj d => exact absurd hm (hno d)
            | null => simp [firstJsonObj, hm]
            | bool b => simp [firstJsonObj, hm]
            | num q => simp [firstJsonObj, hm]
            | str s => simp [firstJsonObj, hm]
            | arr xs => simp [firstJsonObj, hm]
        rw [hstep]
        rcases ih with ⟨h1, h2⟩ | ⟨pre, mm, post, hsp, hpre, hld⟩
        · left
          refine ⟨h1, ?_⟩
          intro m' hm' d
          rcases List.mem_cons.mp hm' with rfl | hm'
          · exact hno d
          · exact h2 m' hm' d
        · right
          refine ⟨m :: pre, mm, post, by rw [hsp]; rfl, ?_, hld⟩
          intro m' hm' d
          rcases List.mem_cons.mp hm' with rfl | hm'
          · exact hno d
          · exact hpre m' hm' d

/-- A list whose `dropWhile` is empty is all-satisfying. -/
theorem all_of_dropWhile_nil {p : Char → Bool} :
    ∀ {l : List Char}, l.dropWhile p = [] → ∀ c ∈ l, p c = true := by
  intro l
  induction l with
  | nil => intro _ c hc; cases hc
  | cons a t ih =>
      intro h c hc
      rw [List.dropWhile_cons] at h
      by_cases ha : p a = true
      · rw [if_pos ha] at h
        rcases List.mem_cons.mp hc with rfl | hc
        · exact ha
        · exact ih h c hc
      · rw [if_neg ha] at h
        cases h
  
/-- A text whose strip is empty is all whitespace. -/
theorem all_space_of_pyStrip_nil {l : List Char} (h : pyStrip l = []) :
    ∀ c ∈ l, isPySpace c = true := by
  intro c hc
  have h2 : ((l.dropWhile isPySpace).reverse.dropWhile isPySpace) = [] := by
    have := congrArg List.reverse h
    simpa [pyStrip] using this
  have hall2 : ∀ x ∈ (l.dropWhile isPySpace).reverse, isPySpace x = true :=
    all_of_dropWhile_nil h2
  have hall : ∀ x ∈ l.dropWhile isPySpace, isPySpace x = true := by
    intro x hx
    exact hall2 x (List.mem_reverse.mpr hx)
  rcases List.mem_append.mp
      ((List.takeWhile_append_dropWhile (p := isPySpace) (l := l)) ▸ hc) with hc' | hc'
  · exact List.mem_takeWhile_imp hc'
  · exact hall c hc'

/-- Without an opening brace there is no candidate block. -/
theorem findBraceBlocksAux_nil_of_no_open :
    ∀ (fuel : ℕ) {l : List Char}, '\x7b' ∉ l → findBraceBlocksAux fuel l = [] := by
  intro fuel
  induction fuel with
  | zero => intro l _; cases l <;> rfl
  | succ f ih =>
      intro l h
      cases l with
      | nil => rfl
      | cons c rest =>
          have hc : ¬ (c = '\x7b') := fun e => h (by simp [e])
          have ht : '\x7b' ∉ rest := fun hx => h (List.mem_cons_of_mem _ hx)
          simp only [findBraceBlocksAux, hc, if_neg, ite_false]
          exact ih ht

/-- Claim C6 (amended).  Override resolution in the Project Context
Builder: a supplied non-empty `json_overrides` mapping is used verbatim; a
missing or explicitly empty mapping (Python truthiness) falls through to
prompt extraction; and extraction scans the brace-delimited candidate
blocks from the last one backward, returning the first that parses as a
JSON object, the empty mapping when none does, silently skipping malformed
candidates and never raising (it is a total function). -/
theorem c6_override_resolution (loads : String → Option JValue) (u : UserInput) :
    (∀ l, u.json_overrides = some l → l.isEmpty = false →
      (build_project_context loads u).json_overrides = l) ∧
    ((u.json_overrides = none ∨ u.json_overrides = some []) →
      (build_project_context loads u).json_overrides =
        extract_json_overrides loads (sanitize_input u.prompt_text)) ∧
    (∀ prompt : String,
      (extract_json_overrides loads prompt = [] ∧
        ∀ m ∈ (findBraceBlocks prompt.data).reverse, ∀ d,
          loads (String.mk m) ≠ some (.obj d)) ∨
      (∃ pre m post,
        (findBraceBlocks prompt.data).reverse = pre ++ m :: post ∧
        (∀ m' ∈ pre, ∀ d, loads (String.mk m') ≠ some (.obj d)) ∧
        loads (String.mk m) = some (.obj (extract_json_overrides loads prompt)))) := by
  refine ⟨?_, ?_, ?_⟩
  · intro l hl hne
    unfold build_project_context
    rw [hl]
    simp [hne]
  · intro h
    unfold build_project_context
    rcases h with h | h <;> simp [h]
  · intro prompt
    by_cases hg : prompt.data = [] ∨ pyStrip prompt.data = []
    · left
      constructor
      · simp [extract_json_overrides, hg]
      · intro m hm d
        exfalso
        have hblocks : findBraceBlocks prompt.data = [] := by
          rcases hg with hg | hg
          · rw [hg]; rfl
          · exact findBraceBlocksAux_nil_of_no_open _
              (fun hx => by
                have := all_space_of_pyStrip_nil hg _ hx
                cases this)
        rw [hblocks] at hm
        cases hm
    · have he : extract_json_overrides loads prompt =
          firstJsonObj loads (findBraceBlocks prompt.data).reverse := by
        simp [extract_json_overrides, hg]
      rw [he]
      exact firstJsonObj_spec loads (findBraceBlocks prompt.data).reverse

/-- Concrete loads stand-in for the C6 witness. -/
def c6wLoads (_ : String) : Option JValue := none

/-- Concrete user input for the C6 witness: a supplied non-empty overrides
mapping. -/
def c6wInput : UserInput :=
  { project_name := "N"
    project_description := "D"
    prompt_text := "p \x7bmalformed\x7d"
    json_overrides := some [("k", .bool true)] }

/-- Witness instantiating `c6_override_resolution`: a supplied non-empty
mapping is used verbatim. -/
theorem c6_override_resolution_witness :
    (build_project_context c6wLoads c6wInput).json_overrides = [("k", JValue.bool true)] :=
  (c6_override_resolution c6wLoads c6wInput).1 [("k", .bool true)] rfl rfl

/-! ## HTML section parser (backend/ai/html_parser.py)

The parser is modelled at the granularity the claims C4/C5 live at: the
cleaned document is a flat sequence of sibling elements (the children of
the content root).  Each element carries the judgements the algorithm
consults: its tag name (`none` for a text node), whether
`_is_meaningful_element` holds (non-empty stripped text), and the
`_is_complex_list` / `_is_large_code_block` verdicts.  Serialized HTML
content and the unused metadata fields are not modelled; a section keeps
its `section_type`, heading `level`, `order_index`, `parent_id` and
`children`.  `uuid4` ids are modelled by a creation counter (fresh ids).
Python `!=` on bs4 tags is structural equality, which the element model
mirrors. -/

/-- A cleaned top-level element of the document, with the judgements the
grouping algorithm consults. -/
structure PElement where
  tag : Option String
  meaningful : Bool
  complexList : Bool := false
  largeCode : Bool := false
deriving DecidableEq, Repr

/-- `self.heading_tags`. -/
def headingTags : List String := ["h1", "h2", "h3", "h4", "h5", "h6"]

/-- `self.list_tags`. -/
def listTags : List String := ["ul", "ol", "dl"]

/-- `self.code_tags`. -/
def codeTags : List String := ["pre", "code"]

/-- `int(heading.name[1])`: the numeral of a heading tag. -/
def headingLevelOf (t : String) : ℕ :=
  (alookup [("h1", 1), ("h2", 2), ("h3", 3), ("h4", 4), ("h5", 5), ("h6", 6)] t).getD 0

/-- Is this element a heading tag? -/
def isHeadingEl (e : PElement) : Bool :=
  match e.tag with
  | some t => headingTags.contains t
  | none => false

/-- Embedding of `_should_be_standalone` (html_parser.py lines 505-522). -/
def shouldBeStandalone (e : PElement) : Bool :=
  match e.tag with
  | none => false
  | some t =>
      t = "table" || (listTags.contains t && e.complexList) ||
        (codeTags.contains t && e.largeCode)

/-- Embedding of `_get_element_grouping_type` (lines 487-503). -/
def elementGroupingType (e : PElement) : String :=
  match e.tag with
  | none => "text"
  | some t =>
      if headingTags.contains t then "heading"
      else if t = "table" then "table"
      else if listTags.contains t then "list"
      else if codeTags.contains t then "code"
      else if t = "p" ∨ t = "div" ∨ t = "span" then "paragraph"
      else "other"

/-- Embedding of `_is_simple_element` (lines 538-543). -/
def isSimpleEl (e : PElement) : Bool :=
  match e.tag with
  | none => true
  | some t => ["p", "span", "div", "br", "strong", "em", "a"].contains t

/-- Embedding of `_should_break_group` (lines 524-536). -/
def shouldBreakGroup (group : List PElement) (e : PElement) : Bool :=
  decide (group.length > 5) ||
    (match group with
     | [] => false
     | g0 :: _ => isSimpleEl g0 && !(isSimpleEl e))

/-- Section type from a group's first element (`_determine_group_section_type`,
lines 571-589, and the identical typing in `_create_grouped_section`). -/
def groupSectionType (group : List PElement) : SectionType :=
  match group with
  | [] => .paragraph
  | e :: _ =>
      match e.tag with
      | none => .paragraph
      | some t =>
          if headingTags.contains t then .heading
          else if t = "table" then .table
          else if listTags.contains t then .list
          else if codeTags.contains t then .code_block
          else .paragraph

/-- A parsed section as the claims see it.  `html_content` and the unused
metadata fields are omitted; `level` is `metadata.level`. -/
structure PSection where
  id : ℕ
  section_type : SectionType
  level : ℕ
  order_index : ℕ
  parent_id : Option ℕ := none
  children : List ℕ := []
deriving DecidableEq, Repr

/-- `extract_section_metadata`'s heading level: for a `HEADING`-typed
section the first of `h1..h6` found in the section's html (the html only
serializes meaningful elements), else 0. -/
def groupLevel (st : SectionType) (elements : List PElement) : ℕ :=
  if st = SectionType.heading then
    (([1, 2, 3, 4, 5, 6].find? (fun n =>
        elements.any (fun e => e.meaningful && e.tag = some ("h" ++ toString n)))).getD 0)
  else 0

/-- Embedding of `_create_content_section` (lines 423-456): `None` without
a meaningful element (an existing meaningful element also guarantees the
serialized html is non-blank, so the html check cannot fail separately). -/
def create_content_section (nid : ℕ) (elements : List PElement) (st : SectionType)
    (oi : ℕ) : Option PSection :=
  if elements.isEmpty || !(elements.any (·.meaningful)) then none
  else some { id := nid, section_type := st, level := groupLevel st elements,
              order_index := oi }

/-- Embedding of `_create_grouped_section` (lines 164-183). -/
def create_grouped_section (nid : ℕ) (elements : List PElement) (oi : ℕ) :
    Option PSection :=
  create_content_section nid elements (groupSectionType elements) oi

/-- Embedding of `_create_standalone_section` (lines 185-198). -/
def create_standalone_section (nid : ℕ) (e : PElement) (oi : ℕ) : Option PSection :=
  match e.tag with
  | none => none
  | some t =>
      let st := if t = "table" then SectionType.table
                else if listTags.contains t then SectionType.list
                else if codeTags.contains t then SectionType.code_block
                else SectionType.paragraph
      create_content_section nid [e] st oi

/-- The accumulating state of `_parse_with_intelligent_grouping`: the
sections built so far, the running `order_index`, and the id counter. -/
structure ParseState where
  sections : List PSection := []
  order_index : ℕ := 0
  nextId : ℕ := 0
deriving Repr

/-- `if section: sections.append(section); order_index += 1` (and a fresh
id was consumed). -/
def pushSection (st : ParseState) (s? : Option PSection) : ParseState :=
  match s? with
  | some s =>
      { sections := st.sections ++ [s], order_index := st.order_index + 1,
        nextId := st.nextId + 1 }
  | none => st

/-- The per-heading span walk of `_parse_with_intelligent_grouping`
(lines 128-160): arguments are the current heading, the remaining span
elements, the accumulated `heading_elements`, and the state.  A meaningful
standalone element with an empty `heading_elements` evaluates
`heading_elements[0]` in the source and raises `IndexError`. -/
def processSpan (heading : PElement) :
    List PElement → List PElement → ParseState → Except String ParseState
  | [], hes, st =>
      if hes.isEmpty then .ok st
      else .ok (pushSection st (create_grouped_section st.nextId hes st.order_index))
  | e :: rest, hes, st =>
      if e.meaningful then
        if shouldBeStandalone e then
          match hes with
          | [] => .error "IndexError: list index out of range"
          | h0 :: htl =>
              let st1 :=
                if (h0 :: htl).length > 1 ∨ h0 ≠ heading then
                  pushSection st (create_grouped_section st.nextId (h0 :: htl) st.order_index)
                else st
              let st2 := pushSection st1 (create_standalone_section st1.nextId e st1.order_index)
              processSpan heading rest [] st2
        else processSpan heading rest (hes ++ [e]) st
      else processSpan heading rest hes st

/-- The outer `for i, heading in enumerate(all_headings)` loop: each
heading's span runs to the next heading; at the flat-sibling level the span
is the prefix of non-heading elements.  Each recursive call consumes at
least the next heading, so `rest.length + 1` fuel always suffices; the fuel
only makes the recursion structural. -/
def processHeadingsAux :
    ℕ → PElement → List PElement → ParseState → Except String ParseState
  | 0, _, _, st => .ok st
  | fuel + 1, h, rest, st => do
      let span := rest.takeWhile (fun e => !(isHeadingEl e))
      let after := rest.dropWhile (fun e => !(isHeadingEl e))
      let st1 ← processSpan h span [h] st
      match after with
      | [] => .ok st1
      | h2 :: rest2 => processHeadingsAux fuel h2 rest2 st1

/-- The grouping fold of `_group_elements_by_type` (lines 350-389),
threading the current group and its grouping type. -/
def groupElementsGo :
    List PElement → List PElement → Option String → List (List PElement)
  | [], current, _ => if current.isEmpty then [] else [current]
  | e :: rest, current, ctype =>
      if e.meaningful then
        let etype := elementGroupingType e
        if ctype ≠ some etype ∨ shouldBeStandalone e = true ∨
            (current.isEmpty = false ∧ shouldBreakGroup current e = true) then
          if current.isEmpty then groupElementsGo rest [e] (some etype)
          else current :: groupElementsGo rest [e] (some etype)
        else groupElementsGo rest (current ++ [e]) ctype
      else groupElementsGo rest current ctype

/-- Embedding of `_group_content_without_headings` (lines 254-284). -/
def group_content_without_headings (elems : List PElement) (st0 : ParseState) :
    ParseState :=
  (groupElementsGo elems [] none).foldl
    (fun st g =>
      if g.isEmpty then st
      else pushSection st (create_content_section st.nextId g (groupSectionType g)
        st.order_index))
    st0

/-- Embedding of `_parse_with_intelligent_grouping` (lines 77-162) over the
flat element sequence. -/
def parse_with_intelligent_grouping (elems : List PElement) :
    Except String (List PSection) :=
  let headings := elems.filter isHeadingEl
  if headings.isEmpty then
    .ok (group_content_without_headings elems {}).sections
  else
    let pre := elems.takeWhile (fun e => !(isHeadingEl e))
    let rest := elems.dropWhile (fun e => !(isHeadingEl e))
    match rest with
    | [] => .ok []
    | h :: after =>
        let preMeaningful := pre.filter (·.meaningful)
        let st0 : ParseState := {}
        let st1 :=
          if preMeaningful.isEmpty then st0
          else pushSection st0
            (create_grouped_section st0.nextId preMeaningful st0.order_index)
        (processHeadingsAux (after.length + 1) h after st1).map (·.sections)

/-- Update a section's `parent_id` in place. -/
def setParent (ss : List PSection) (j : ℕ) (pid : ℕ) : List PSection :=
  match ss[j]? with
  | some s => ss.set j { s with parent_id := some pid }
  | none => ss

/-- Append to a section's `children` in place. -/
def addChild (ss : List PSection) (j : ℕ) (cid : ℕ) : List PSection :=
  match ss[j]? with
  | some s => ss.set j { s with children := s.children ++ [cid] }
  | none => ss

/-- The backward scan of `_establish_section_hierarchy` for non-heading
sections (lines 846-849): `for i in range(section.order_index - 1, -1, -1)`
with the `i < len(sections)` guard; the argument is one past the first
index examined. -/
def scanBackHeadingIdx (ss : List PSection) : ℕ → Option ℕ
  | 0 => none
  | i + 1 =>
      match ss[i]? with
      | some s =>
          if s.section_type = SectionType.heading then some i
          else scanBackHeadingIdx ss i
      | none => scanBackHeadingIdx ss i

/-- The main loop of `_establish_section_hierarchy` (lines 825-853),
threading the section list (only `parent_id`/`children` are mutated), the
parent stack of `(section_id, heading_level)` pairs (head = top of stack),
and the position `j`.  The id → index map lookup is by id (ids are unique,
being freshly generated).  `ss.length` fuel covers the whole iteration. -/
def hierLoopGo : List PSection → List (ℕ × ℕ) → ℕ → ℕ → List PSection
  | ss, _, _, 0 => ss
  | ss, stack, j, fuel + 1 =>
      match ss[j]? with
      | none => ss
      | some s =>
          if s.section_type = SectionType.heading then
            let stack1 := stack.dropWhile (fun e => e.2 ≥ s.level)
            match stack1 with
            | [] => hierLoopGo ss ((s.id, s.level) :: stack1) (j + 1) fuel
            | (pid, _) :: _ =>
                let ss1 := setParent ss j pid
                let ss2 :=
                  match ss1.findIdx? (fun x => x.id = pid) with
                  | some pj => addChild ss1 pj s.id
                  | none => ss1
                hierLoopGo ss2 ((s.id, s.level) :: stack1) (j + 1) fuel
          else
            match scanBackHeadingIdx ss s.order_index with
            | some hi =>
                match ss[hi]? with
                | some h =>
                    hierLoopGo (addChild (setParent ss j h.id) hi s.id) stack (j + 1) fuel
                | none => hierLoopGo ss stack (j + 1) fuel
            | none => hierLoopGo ss stack (j + 1) fuel

/-- Embedding of `_establish_section_hierarchy` (lines 808-853): stable
sort by `order_index` (the input is already sorted, so this is the
identity), then the stack walk. -/
def establish_section_hierarchy (sections : List PSection) : List PSection :=
  let sorted := List.insertionSort (fun a b => a.order_index ≤ b.order_index) sections
  hierLoopGo sorted [] 0 sorted.length

/-- Embedding of `HTMLSectionParser.parse_template` (lines 49-75) over the
cleaned flat element sequence: grouping, then hierarchy linking. -/
def parse_template_model (elems : List PElement) : Except String (List PSection) :=
  (parse_with_intelligent_grouping elems).map establish_section_hierarchy

/-- Invariant of the grouping pass: `order_index` and the id counter both
equal the number of sections built, every section sits at the position
given by its `order_index` (= its id), and hierarchy fields are still
blank. -/
def StInv (st : ParseState) : Prop :=
  st.order_index = st.sections.length ∧ st.nextId = st.sections.length ∧
  ∀ (k : ℕ) (s : PSection), st.sections[k]? = some s →
    s.order_index = k ∧ s.id = k ∧ s.parent_id = none ∧ s.children = []

/-- A candidate section is fresh for the state: if present, it carries the
state's id counter and order index and blank hierarchy fields. -/
def freshFor (st : ParseState) : Option PSection → Prop
  | none => True
  | some s =>
      s.id = st.nextId ∧ s.order_index = st.order_index ∧
      s.parent_id = none ∧ s.children = []

/-- Sections made by `create_content_section` from the current counters are
fresh. -/
theorem create_content_section_fresh (st : ParseState) (g : List PElement)
    (ty : SectionType) :
    freshFor st (create_content_section st.nextId g ty st.order_index) := by
  unfold create_content_section
  split
  · trivial
  · exact ⟨rfl, rfl, rfl, rfl⟩

/-- Sections made by `create_grouped_section` from the current counters are
fresh. -/
theorem create_grouped_section_fresh (st : ParseState) (g : List PElement) :
    freshFor st (create_grouped_section st.nextId g st.order_index) :=
  create_content_section_fresh st g (groupSectionType g)

/-- Sections made by `create_standalone_section` from the current counters
are fresh. -/
theorem create_standalone_section_fresh (st : ParseState) (e : PElement) :
    freshFor st (create_standalone_section st.nextId e st.order_index) := by
  unfold create_standalone_section
  cases e.tag with
  | none => trivial
  | some t => exact create_content_section_fresh st [e] _

/-- Appending a fresh section preserves the invariant. -/
theorem pushSection_inv {st : ParseState} (hinv : StInv st) {s? : Option PSection}
    (hf : freshFor st s?) : StInv (pushSection st s?) := by
  cases s? with
  | none => exact hinv
  | some s =>
      obtain ⟨hid, hoi, hpar, hch⟩ := hf
      obtain ⟨ho, hn, hk⟩ := hinv
      refine ⟨?_, ?_, ?_⟩
      · simp [pushSection, ho]
      · simp [pushSection, hn]
      · intro k sk hks
        simp only [pushSection] at hks
        by_cases hlt : k < st.sections.length
        · rw [List.getElem?_append_left hlt] at hks
          exact hk k sk hks
        · by_cases heq : k = st.sections.length
          · subst heq
            rw [List.getElem?_concat_length] at hks
            cases hks
            exact ⟨hoi.trans ho, hid.trans hn, hpar, hch⟩
          · have hge : st.sections.length ≤ k := Nat.le_of_not_lt hlt
            rw [List.getElem?_append_right hge] at hks
            rcases Nat.lt_or_ge (k - st.sections.length) 1 with hz | hz
            · interval_cases h : k - st.sections.length
              · omega
            · rw [List.getElem?_eq_none (by simp; omega)] at hks
              cases hks

/-- The span walk preserves the invariant on every successful run. -/
theorem processSpan_inv (heading : PElement) :
    ∀ (span hes : List PElement) (st : ParseState), StInv st →
      ∀ st', processSpan heading span hes st = .ok st' → StInv st' := by
  intro span
  induction span with
  | nil =>
      intro hes st hinv st' h
      simp only [processSpan] at h
      by_cases he : hes.isEmpty
      · rw [if_pos he] at h
        cases h
        exact hinv
      · rw [if_neg he] at h
        cases h
        exact pushSection_inv hinv (create_grouped_section_fresh st hes)
  | cons e rest ih =>
      intro hes st hinv st' h
      simp only [processSpan] at h
      by_cases hm : e.meaningful = true
      · rw [if_pos hm] at h
        by_cases hsa : shouldBeStandalone e = true
        · rw [if_pos hsa] at h
          cases hes with
          | nil => cases h
          | cons h0 htl =>
              have hst1 : StInv (if (h0 :: htl).length > 1 ∨ h0 ≠ heading then
                  pushSection st (create_grouped_section st.nextId (h0 :: htl)
                    st.order_index) else st) := by
                split
                · exact pushSection_inv hinv (create_grouped_section_fresh st (h0 :: htl))
                · exact hinv
              refine ih [] _ (pushSection_inv hst1 ?_) st' h
              exact create_standalone_section_fresh _ e
        · rw [if_neg hsa] at h
          exact ih (hes ++ [e]) st hinv st' h
      · rw [if_neg hm] at h
        exact ih hes st hinv st' h

/-- The heading loop preserves the invariant on every successful run. -/
theorem processHeadingsAux_inv :
    ∀ (fuel : ℕ) (h : PElement) (rest : List PElement) (st : ParseState),
      StInv st → ∀ st', processHeadingsAux fuel h rest st = .ok st' → StInv st' := by
  intro fuel
  induction fuel with
  | zero =>
      intro h rest st hinv st' hrun
      cases hrun
      exact hinv
  | succ f ih =>
      intro h rest st hinv st' hrun
      simp only [processHeadingsAux] at hrun
      rcases hps : processSpan h (rest.takeWhile (fun e => !(isHeadingEl e))) [h] st
        with e | st1
      · rw [hps] at hrun
        cases hrun
      · rw [hps] at hrun
        have hinv1 : StInv st1 := processSpan_inv h _ [h] st hinv st1 hps
        rcases hafter : rest.dropWhile (fun e => !(isHeadingEl e)) with _ | ⟨h2, rest2⟩
        · rw [hafter] at hrun
          simp only [Except.bind] at hrun
          cases hrun
          exact hinv1
        · rw [hafter] at hrun
          simp only [Except.bind] at hrun
          exact ih h2 rest2 st1 hinv1 st' hrun

/-- The no-heading grouping fold preserves the invariant. -/
theorem group_fold_inv :
    ∀ (gs : List (List PElement)) (st : ParseState), StInv st →
      StInv (gs.foldl
        (fun st g => if g.isEmpty then st
          else pushSection st (create_content_section st.nextId g (groupSectionType g)
            st.order_index)) st) := by
  intro gs
  induction gs with
  | nil => intro st hinv; exact hinv
  | cons g rest ih =>
      intro st hinv
      simp only [List.foldl_cons]
      by_cases hg : g.isEmpty
      · rw [if_pos hg]
        exact ih st hinv
      · rw [if_neg hg]
        exact ih _ (pushSection_inv hinv (create_content_section_fresh st g _))

/-- The empty state satisfies the invariant. -/
theorem stInv_empty : StInv {} :=
  ⟨rfl, rfl, fun k s h => by cases k <;> cases h⟩

/-- Inversion for a successful `Except.map`. -/
theorem except_map_ok {α β ε : Type} {f : α → β} {x : Except ε α} {b : β}
    (h : Except.map f x = .ok b) : ∃ a, x = .ok a ∧ b = f a := by
  cases x with
  | error e => cases h
  | ok a => exact ⟨a, rfl, (Except.ok.injEq _ _ ▸ h).symm⟩

/-- Every successful grouping pass yields sections whose `order_index` and
id equal their position, with blank hierarchy fields. -/
theorem parse_with_intelligent_grouping_inv (elems : List PElement)
    (ss : List PSection) (h : parse_with_intelligent_grouping elems = .ok ss) :
    ∀ (k : ℕ) (s : PSection), ss[k]? = some s →
      s.order_index = k ∧ s.id = k ∧ s.parent_id = none ∧ s.children = [] := by
  unfold parse_with_intelligent_grouping at h
  by_cases hh : (elems.filter isHeadingEl).isEmpty
  · rw [if_pos hh] at h
    cases h
    exact (group_fold_inv _ {} stInv_empty).2.2
  · rw [if_neg hh] at h
    rcases hrest : elems.dropWhile (fun e => !(isHeadingEl e)) with _ | ⟨hd, after⟩
    · rw [hrest] at h
      cases h
      intro k s hks
      cases k <;> cases hks
    · rw [hrest] at h
      obtain ⟨stf, hrun, hss⟩ := except_map_ok h
      subst hss
      refine (processHeadingsAux_inv (after.length + 1) hd after _ ?_ stf hrun).2.2
      split
      · exact stInv_empty
      · exact pushSection_inv stInv_empty (create_grouped_section_fresh {} _)

/-- The hierarchy invariant: every section's id and `order_index` still
equal its position, and any parent index is strictly smaller. -/
def HIdx (ss : List PSection) : Prop :=
  ∀ (k : ℕ) (s : PSection), ss[k]? = some s →
    s.id = k ∧ s.order_index = k ∧ ∀ pid, s.parent_id = some pid → pid < k

/-- `setParent` leaves other positions alone. -/
theorem setParent_getElem_ne (ss : List PSection) (j pid k : ℕ) (hk : k ≠ j) :
    (setParent ss j pid)[k]? = ss[k]? := by
  unfold setParent
  cases hj : ss[j]? with
  | none => rfl
  | some s => exact List.getElem?_set_ne (fun h => hk h.symm)

/-- `setParent` at the target position only rewrites `parent_id`. -/
theorem setParent_getElem_self {ss : List PSection} {j : ℕ} {s : PSection}
    (hj : ss[j]? = some s) (pid : ℕ) :
    (setParent ss j pid)[j]? = some { s with parent_id := some pid } := by
  unfold setParent
  rw [hj]
  exact List.getElem?_set_eq_of_lt _ (List.getElem?_eq_some_iff.mp hj).1

/-- `addChild` leaves other positions alone. -/
theorem addChild_getElem_ne (ss : List PSection) (j cid k : ℕ) (hk : k ≠ j) :
    (addChild ss j cid)[k]? = ss[k]? := by
  unfold addChild
  cases hj : ss[j]? with
  | none => rfl
  | some s => exact List.getElem?_set_ne (fun h => hk h.symm)

/-- `addChild` at the target position only extends `children`. -/
theorem addChild_getElem_self {ss : List PSection} {j : ℕ} {s : PSection}
    (hj : ss[j]? = some s) (cid : ℕ) :
    (addChild ss j cid)[j]? = some { s with children := s.children ++ [cid] } := by
  unfold addChild
  rw [hj]
  exact List.getElem?_set_eq_of_lt _ (List.getElem?_eq_some_iff.mp hj).1

/-- The backward scan only returns indices below its starting bound. -/
theorem scanBackHeadingIdx_lt (ss : List PSection) :
    ∀ n i, scanBackHeadingIdx ss n = some i → i < n := by
  intro n
  induction n with
  | zero => intro i h; cases h
  | succ m ih =>
      intro i h
      simp only [scanBackHeadingIdx] at h
      cases hm : ss[m]? with
      | none =>
          simp only [hm] at h
          exact Nat.lt_succ_of_lt (ih i h)
      | some s =>
          simp only [hm] at h
          by_cases hh : s.section_type = SectionType.heading
          · rw [if_pos hh] at h
            cases h
            exact Nat.lt_succ_self m
          · rw [if_neg hh] at h
            exact Nat.lt_succ_of_lt (ih i h)

/-- Setting a parent strictly below the target position preserves the
hierarchy invariant. -/
theorem HIdx_setParent {ss : List PSection} (hinv : HIdx ss) {j pid : ℕ}
    (hpid : pid < j) : HIdx (setParent ss j pid) := by
  intro k s hk
  by_cases hkj : k = j
  · subst hkj
    cases hj : ss[k]? with
    | none =>
        have heq : setParent ss k pid = ss := by
          unfold setParent
          rw [hj]
        rw [heq, hj] at hk
        cases hk
    | some s0 =>
        rw [setParent_getElem_self hj pid] at hk
        cases hk
        obtain ⟨hid, hoi, _⟩ := hinv k s0 hj
        refine ⟨hid, hoi, ?_⟩
        intro p hp
        cases hp
        exact hpid
  · rw [setParent_getElem_ne ss j pid k hkj] at hk
    exact hinv k s hk

/-- Appending a child preserves the hierarchy invariant. -/
theorem HIdx_addChild {ss : List PSection} (hinv : HIdx ss) (j cid : ℕ) :
    HIdx (addChild ss j cid) := by
  intro k s hk
  by_cases hkj : k = j
  · subst hkj
    cases hj : ss[k]? with
    | none =>
        have heq : addChild ss k cid = ss := by
          unfold addChild
          rw [hj]
        rw [heq, hj] at hk
        cases hk
    | some s0 =>
        rw [addChild_getElem_self hj cid] at hk
        cases hk
        exact hinv k s0 hj
  · rw [addChild_getElem_ne ss j cid k hkj] at hk
    exact hinv k s hk

/-- The stack walk of `_establish_section_hierarchy` preserves the
hierarchy invariant, provided every stacked id is below the cursor. -/
theorem hierLoopGo_HIdx :
    ∀ (fuel : ℕ) (ss : List PSection) (stack : List (ℕ × ℕ)) (j : ℕ),
      HIdx ss → (∀ e ∈ stack, e.1 < j) → HIdx (hierLoopGo ss stack j fuel) := by
  intro fuel
  induction fuel with
  | zero => intro ss stack j hinv _; exact hinv
  | succ f ih =>
      intro ss stack j hinv hstack
      rcases hj : ss[j]? with _ | s
      · simp only [hierLoopGo, hj]
        exact hinv
      · obtain ⟨hid, hoi, _⟩ := hinv j s hj
        by_cases hh : s.section_type = SectionType.heading
        · rcases hs1 : stack.dropWhile (fun e => e.2 ≥ s.level) with _ | ⟨⟨pid, lv⟩, tl⟩
          · simp only [hierLoopGo, hj, if_pos hh, hs1]
            refine ih ss _ (j + 1) hinv ?_
            intro e he
            rcases List.mem_cons.mp he with he | he
            · subst he
              simp [hid]
            · simp at he
          · have hpidj : pid < j := by
              have hmem : (pid, lv) ∈ stack := by
                refine (List.dropWhile_sublist (fun (x : ℕ × ℕ) => decide (x.2 ≥ s.level))).subset ?_
                rw [hs1]
                exact List.mem_cons_self _ _
              exact hstack _ hmem
            have hinv1 : HIdx (setParent ss j pid) := HIdx_setParent hinv hpidj
            have hstk : ∀ e ∈ ((s.id, s.level) :: (pid, lv) :: tl), e.1 < j + 1 := by
              intro e he
              rcases List.mem_cons.mp he with he | he
              · subst he
                simp [hid]
              · have hmem : e ∈ stack := by
                  refine (List.dropWhile_sublist (fun (x : ℕ × ℕ) => decide (x.2 ≥ s.level))).subset ?_
                  rw [hs1]
                  exact he
                exact Nat.lt_succ_of_lt (hstack e hmem)
            rcases hfi : (setParent ss j pid).findIdx? (fun x => x.id = pid)
              with _ | pj
            · simp only [hierLoopGo, hj, if_pos hh, hs1, hfi]
              exact ih _ _ (j + 1) hinv1 hstk
            · simp only [hierLoopGo, hj, if_pos hh, hs1, hfi]
              exact ih _ _ (j + 1) (HIdx_addChild hinv1 pj s.id) hstk
        · rcases hsb : scanBackHeadingIdx ss s.order_index with _ | hi
          · simp only [hierLoopGo, hj, if_neg hh, hsb]
            refine ih ss stack (j + 1) hinv ?_
            intro e he
            exact Nat.lt_succ_of_lt (hstack e he)
          · rcases hhi : ss[hi]? with _ | hsec
            · simp only [hierLoopGo, hj, if_neg hh, hsb, hhi]
              refine ih ss stack (j + 1) hinv ?_
              intro e he
              exact Nat.lt_succ_of_lt (hstack e he)
            · simp only [hierLoopGo, hj, if_neg hh, hsb, hhi]
              have hhilt : hi < j := by
                have := scanBackHeadingIdx_lt ss s.order_index hi hsb
                omega
              have hhid : hsec.id = hi := (hinv hi hsec hhi).1
              have hinv1 : HIdx (setParent ss j hsec.id) :=
                HIdx_setParent hinv (hhid ▸ hhilt)
              refine ih _ stack (j + 1) (HIdx_addChild hinv1 hi s.id) ?_
              intro e he
              exact Nat.lt_succ_of_lt (hstack e he)

/-- On a grouping-pass output (ids, order indices positional, hierarchy
blank) the hierarchy builder's sort is the identity and the walk
establishes the hierarchy invariant. -/
theorem establish_section_hierarchy_HIdx (ss0 : List PSection)
    (h0 : ∀ (k : ℕ) (s : PSection), ss0[k]? = some s →
      s.order_index = k ∧ s.id = k ∧ s.parent_id = none ∧ s.children = []) :
    HIdx (establish_section_hierarchy ss0) := by
  have hsorted : List.Sorted (fun a b => a.order_index ≤ b.order_index) ss0 := by
    refine List.pairwise_iff_getElem.mpr ?_
    intro i j hi hj hij
    have hoi := (h0 i ss0[i] (List.getElem?_eq_getElem hi)).1
    have hoj := (h0 j ss0[j] (List.getElem?_eq_getElem hj)).1
    omega
  have hinv : HIdx ss0 := by
    intro k s hk
    obtain ⟨hoi, hid, hpar, _⟩ := h0 k s hk
    refine ⟨hid, hoi, ?_⟩
    intro pid hp
    rw [hpar] at hp
    cases hp
  unfold establish_section_hierarchy
  rw [hsorted.insertionSort_eq]
  exact hierLoopGo_HIdx ss0.length ss0 [] 0 hinv (fun e he => by cases he)

/-- Every successful full parse satisfies the hierarchy invariant. -/
theorem parse_template_model_HIdx (elems : List PElement) (ss : List PSection)
    (hok : parse_template_model elems = .ok ss) : HIdx ss := by
  obtain ⟨ss0, hg, hss⟩ := except_map_ok hok
  subst hss
  exact establish_section_hierarchy_HIdx ss0
    (parse_with_intelligent_grouping_inv elems ss0 hg)

/-- Follow `parent_id` links through the section list (lookup by id, as
the hierarchy pass links by id), with enough fuel: `true` iff a root
(`parent_id = none`) is reached within `fuel` hops. -/
def reachesRoot (ss : List PSection) : ℕ → PSection → Bool
  | 0, s => s.parent_id.isNone
  | fuel + 1, s =>
      match s.parent_id with
      | none => true
      | some pid =>
          match ss.find? (fun t => t.id = pid) with
          | some t => reachesRoot ss fuel t
          | none => false

/-- Under the hierarchy invariant, every section reaches a root in at
most `order_index + 1` hops: parents have strictly smaller indices. -/
theorem reachesRoot_of_HIdx {ss : List PSection} (hinv : HIdx ss) :
    ∀ (n : ℕ) (s : PSection), s ∈ ss → s.order_index < n →
      reachesRoot ss n s = true := by
  intro n
  induction n with
  | zero => intro s _ h; omega
  | succ m ih =>
      intro s hs ho
      cases hp : s.parent_id with
      | none => simp [reachesRoot, hp]
      | some pid =>
          obtain ⟨k, hk⟩ := List.mem_iff_getElem?.mp hs
          obtain ⟨hid, hoi, hplt⟩ := hinv k s hk
          have hpidk : pid < k := hplt pid hp
          have hklen : k < ss.length := (List.getElem?_eq_some_iff.mp hk).1
          have hpidlen : pid < ss.length := by omega
          have hpidmem : ss[pid] ∈ ss :=
            List.mem_iff_getElem?.mpr ⟨pid, List.getElem?_eq_getElem hpidlen⟩
          have hpidid : (ss[pid]).id = pid :=
            (hinv pid ss[pid] (List.getElem?_eq_getElem hpidlen)).1
          have hfind : (ss.find? (fun t => t.id = pid)).isSome := by
            rw [List.find?_isSome]
            exact ⟨ss[pid], hpidmem, by simp [hpidid]⟩
          obtain ⟨t, hft⟩ := Option.isSome_iff_exists.mp hfind
          have htid : t.id = pid := by
            have := List.find?_some hft
            simpa using this
          have htmem : t ∈ ss := List.mem_of_find?_eq_some hft
          obtain ⟨kt, hkt⟩ := List.mem_iff_getElem?.mp htmem
          have htinv := hinv kt t hkt
          have hktpid : kt = pid := by rw [← htinv.1, htid]
          have htoi : t.order_index = pid := by rw [htinv.2.1, hktpid]
          have hrec : reachesRoot ss m t = true := ih t htmem (by omega)
          simp [reachesRoot, hp, hft, hrec]

/-- C4: for every element sequence on which the parser succeeds, the
output satisfies sections[i].order_index = i at every index i — order
indices start at 0 and are consecutive, strictly increasing with no
gaps. -/
theorem c4_order_index_positional (elems : List PElement) (ss : List PSection)
    (hok : parse_template_model elems = .ok ss) :
    ∀ (i : ℕ) (s : PSection), ss[i]? = some s → s.order_index = i :=
  fun i s h => ((parse_template_model_HIdx elems ss hok) i s h).2.1

/-- Witness input for the order-index invariant: h1, p, h2, p. -/
def c4wElems : List PElement :=
  [{ tag := some "h1", meaningful := true },
   { tag := some "p", meaningful := true },
   { tag := some "h2", meaningful := true },
   { tag := some "p", meaningful := true }]

/-- The parse output on the order-index witness input. -/
def c4wSections : List PSection :=
  [{ id := 0, section_type := SectionType.heading, level := 1, order_index := 0,
     parent_id := none, children := [1] },
   { id := 1, section_type := SectionType.heading, level := 2, order_index := 1,
     parent_id := some 0, children := [] }]

/-- The second section of the order-index witness output. -/
def c4wSec1 : PSection :=
  { id := 1, section_type := SectionType.heading, level := 2, order_index := 1,
    parent_id := some 0, children := [] }

/-- The order-index invariant at a concrete parse. -/
theorem c4_order_index_positional_witness :
    parse_template_model c4wElems = .ok c4wSections ∧ c4wSec1.order_index = 1 :=
  ⟨rfl, c4_order_index_positional c4wElems c4wSections rfl 1 c4wSec1 rfl⟩

/-- C5: on every successful parse, a section with a parent refers to an
existing section with strictly smaller order_index, and following
parent_id from any section reaches a root (parent_id = none) within
sections.length hops — the links form an acyclic forest. -/
theorem c5_hierarchy_parent_acyclic (elems : List PElement) (ss : List PSection)
    (hok : parse_template_model elems = .ok ss) :
    (∀ s ∈ ss, ∀ pid, s.parent_id = some pid →
      ∃ t ∈ ss, t.id = pid ∧ t.order_index < s.order_index) ∧
    (∀ s ∈ ss, reachesRoot ss ss.length s = true) := by
  have hinv := parse_template_model_HIdx elems ss hok
  constructor
  · intro s hs pid hp
    obtain ⟨k, hk⟩ := List.mem_iff_getElem?.mp hs
    obtain ⟨hid, hoi, hplt⟩ := hinv k s hk
    have hpidk : pid < k := hplt pid hp
    have hklen : k < ss.length := (List.getElem?_eq_some_iff.mp hk).1
    have hpidlen : pid < ss.length := by omega
    refine ⟨ss[pid],
      List.mem_iff_getElem?.mpr ⟨pid, List.getElem?_eq_getElem hpidlen⟩, ?_, ?_⟩
    · exact (hinv pid ss[pid] (List.getElem?_eq_getElem hpidlen)).1
    · have hpo := (hinv pid ss[pid] (List.getElem?_eq_getElem hpidlen)).2.1
      omega
  · intro s hs
    obtain ⟨k, hk⟩ := List.mem_iff_getElem?.mp hs
    have hklen : k < ss.length := (List.getElem?_eq_some_iff.mp hk).1
    have hoi := (hinv k s hk).2.1
    exact reachesRoot_of_HIdx hinv ss.length s hs (by omega)

/-- Witness input for the hierarchy invariant: h1, p, table, h2, p — the
table becomes a standalone section parented to the h1. -/
def c5wElems : List PElement :=
  [{ tag := some "h1", meaningful := true },
   { tag := some "p", meaningful := true },
   { tag := some "table", meaningful := true },
   { tag := some "h2", meaningful := true },
   { tag := some "p", meaningful := true }]

/-- The parse output on the hierarchy witness input. -/
def c5wSections : List PSection :=
  [{ id := 0, section_type := SectionType.heading, level := 1, order_index := 0,
     parent_id := none, children := [1, 2] },
   { id := 1, section_type := SectionType.table, level := 0, order_index := 1,
     parent_id := some 0, children := [] },
   { id := 2, section_type := SectionType.heading, level := 2, order_index := 2,
     parent_id := some 0, children := [] }]

/-- The table section of the hierarchy witness output. -/
def c5wSec1 : PSection :=
  { id := 1, section_type := SectionType.table, level := 0, order_index := 1,
    parent_id := some 0, children := [] }

/-- The hierarchy invariant at a concrete parse: the parented table
section reaches the root. -/
theorem c5_hierarchy_parent_acyclic_witness :
    parse_template_model c5wElems = .ok c5wSections ∧
    reachesRoot c5wSections c5wSections.length c5wSec1 = true :=
  ⟨rfl, (c5_hierarchy_parent_acyclic c5wElems c5wSections rfl).2 c5wSec1 (by decide)⟩
